import Mathlib

/-!
Verification of the option-reconstruction and answer-reconciliation pipeline
of `scripts/fix_excel.py`.

The pipeline's cell values are modelled as `List Char` (Python `str` is a
sequence of code points, and Python `len`, slicing and `in` all work on code
points, exactly as `List Char` does here).  Each definition below is a direct
translation of the corresponding Python function; the Python library
primitives it relies on (`str.strip`, `str.split`, `re.sub`, `re.split`,
`unicodedata.normalize`, `str.casefold`, float multiplication) are modelled
explicitly, restricted where noted to the character repertoire the
repository's data and the statements below actually exercise.
-/

namespace FixExcel

/-- Short accessor for the code points of a string literal. -/
def S (s : String) : List Char := s.data

/-- Python whitespace (`str.isspace`, `re` class `\s`, `str.strip`,
`str.split()` with no separator all use this set). -/
def isPyWs (c : Char) : Bool :=
  c = ' ' || c = '\t' || c = '\n' || c = '\r' || c = '\x0b' || c = '\x0c' ||
  c = '\x1c' || c = '\x1d' || c = '\x1e' || c = '\x1f' || c = '\x85' ||
  c = '\u00A0' || c = '\u1680' || ('\u2000' ≤ c && c ≤ '\u200A') ||
  c = '\u2028' || c = '\u2029' || c = '\u202F' || c = '\u205F' || c = '\u3000'

/-- Model of `unicodedata.normalize("NFKC", ·)` on one code point, restricted
to the repertoire used in this development: the compatibility spaces
U+00A0, U+2007, U+2009 and U+202F decompose to a plain space; ASCII,
accented Latin letters (already NFC-composed), zero-width characters and
the punctuation used here are NFKC-fixed points. -/
def nfkcChar (c : Char) : Char :=
  if c = '\u00A0' || c = '\u2007' || c = '\u2009' || c = '\u202F' then ' ' else c

/-- The character class removed by `_norm`'s first regex: U+00A0, U+2009,
U+2007, U+202F, U+200B, U+200C, U+200D, U+FEFF. -/
def isNormErased (c : Char) : Bool :=
  c = '\u00A0' || c = '\u2009' || c = '\u2007' || c = '\u202F' ||
  c = '\u200B' || c = '\u200C' || c = '\u200D' || c = '\uFEFF'

/-- Model of `str.casefold` on one code point, restricted to the repertoire
used in this development: ASCII letters fold to ASCII lowercase, É folds to
é (full case folding touches no other character appearing here). -/
def casefoldChar (c : Char) : Char :=
  if 'A' ≤ c && c ≤ 'Z' then Char.ofNat (c.toNat + 32)
  else if c = '\u00C9' then '\u00E9' else c

/-- Drop leading Python whitespace (`str.lstrip`). -/
def dropLeadWs (l : List Char) : List Char := l.dropWhile isPyWs

/-- Drop the maximal trailing run of Python whitespace (`str.rstrip`):
a character is kept unless it is whitespace and everything after it was
dropped. -/
def dropTrailWs : List Char → List Char
  | [] => []
  | c :: rs =>
    let r := dropTrailWs rs
    if r.isEmpty && isPyWs c then [] else c :: r

/-- Model of `str.strip()`: drop Python whitespace from both ends. -/
def stripChars (l : List Char) : List Char :=
  dropTrailWs (l.dropWhile isPyWs)

/-- One step of `re.sub(r"\s+", " ", ·)`: the flag records whether we are
inside a whitespace run that has already emitted its single space. -/
def collapseWsGo : Bool → List Char → List Char
  | _, [] => []
  | inRun, c :: rs =>
    if isPyWs c then
      if inRun then collapseWsGo true rs else ' ' :: collapseWsGo true rs
    else c :: collapseWsGo false rs

/-- Model of `re.sub(r"\s+", " ", s)`: every maximal whitespace run becomes
one space. -/
def collapseWs (l : List Char) : List Char := collapseWsGo false l

/-- The trailing-punctuation class of `_norm`'s final regex `[.;:]+$`. -/
def isTrailPunct (c : Char) : Bool := c = '.' || c = ';' || c = ':'

/-- Model of `_norm` (fix_excel.py, lines 21-29): NFKC, erase the fixed set of
invisible code points, turn `\r` and `\t` into spaces, collapse whitespace
runs, strip, casefold, then strip one trailing run of `.` `;` `:`. -/
def norm (s : List Char) : List Char :=
  let s1 := s.map nfkcChar
  let s2 := s1.filter (fun c => !isNormErased c)
  let s3 := s2.map (fun c => if c = '\r' || c = '\t' then ' ' else c)
  let s4 := (stripChars (collapseWs s3)).map casefoldChar
  (s4.reverse.dropWhile isTrailPunct).reverse

/-- Split a character list at every occurrence of `sep`, keeping empty
pieces, as Python `str.split(sep)` does. -/
def splitOnChar (sep : Char) : List Char → List (List Char)
  | [] => [[]]
  | c :: rs =>
    if c = sep then [] :: splitOnChar sep rs
    else
      match splitOnChar sep rs with
      | [] => [[c]]
      | p :: ps => (c :: p) :: ps

/-- Model of `_split_answers` (lines 32-34): strip the cell, split on `;`,
strip each piece, drop the empty ones. -/
def splitAnswers (ans : List Char) : List (List Char) :=
  ((splitOnChar ';' (stripChars ans)).map stripChars).filter (fun a => a ≠ [])

/-- Accumulator pass of Python `str.split()` with no separator: words are the
maximal runs of non-whitespace characters. -/
def pyWordsGo (acc : List Char) : List Char → List (List Char)
  | [] => if acc = [] then [] else [acc.reverse]
  | c :: rs =>
    if isPyWs c then
      if acc = [] then pyWordsGo [] rs else acc.reverse :: pyWordsGo [] rs
    else pyWordsGo (c :: acc) rs

/-- Model of Python `str.split()` with no separator. -/
def pyWords (l : List Char) : List (List Char) := pyWordsGo [] l

/-- Model of `_is_sentence` (lines 38-47): a stripped line is a sentence when
it has at least 20 characters, or at least 4 words, or ends in `.` `!` `?`. -/
def isSentence (line : List Char) : Bool :=
  let txt := stripChars line
  if txt = [] then false
  else
    decide (txt.length ≥ 20) || decide ((pyWords txt).length ≥ 4) ||
      (match txt.getLast? with
       | some c => c = '.' || c = '!' || c = '?'
       | none => false)

/-- Significand of the IEEE-754 binary64 value closest to 0.6:
`0.6` parses to `5404319552844595 / 2 ^ 53`. -/
def f06num : Nat := 5404319552844595

/-- Position of the highest set bit: the floor of the base-2 logarithm, exact
for every argument below `2 ^ 64` (the only arguments arising here are list
lengths times the 53-bit significand). -/
def log2f (t : Nat) : Nat :=
  (List.range 64).foldl (fun acc i => if 2 ^ i ≤ t then i else acc) 0

/-- Model of Python `int(0.6 * n)` for a nonnegative integer `n`: the exact
product `n * (f06num / 2 ^ 53)` is rounded to 53 significant bits with
round-to-nearest, ties to even, and `int` then truncates toward zero. -/
def pyInt06 (n : Nat) : Nat :=
  let t := n * f06num
  if t = 0 then 0
  else
    let b := log2f t
    if b ≤ 52 then t / 2 ^ 53
    else
      let shift := b - 52
      let q := t / 2 ^ shift
      let r := t % 2 ^ shift
      let half := 2 ^ (shift - 1)
      let q2 := if r > half || (r = half && q % 2 = 1) then q + 1 else q
      q2 * 2 ^ shift / 2 ^ 53

/-- Count of sentence lines, as in `_mostly_sentences`. -/
def countSentences (lines : List (List Char)) : Nat :=
  (lines.filter (fun l => isSentence l)).length

/-- Model of `_mostly_sentences` (lines 50-54): an empty list is never mostly
sentences; otherwise the sentence count must reach
`max(1, int(0.6 * len(lines)))`. -/
def mostlySentences (lines : List (List Char)) : Bool :=
  if lines = [] then false
  else decide (countSentences lines ≥ max 1 (pyInt06 lines.length))



/-- Lookbehind class of `_SENT_SPLIT`: sentence-terminal punctuation. -/
def isTermCh (c : Char) : Bool := c = '.' || c = '!' || c = '?'

/-- Lookahead class of `_SENT_SPLIT`: an uppercase ASCII letter, a digit, an
opening parenthesis, a straight quote, or a left curly quote U+201C. -/
def isStartCh (c : Char) : Bool :=
  ('A' ≤ c && c ≤ 'Z') || ('0' ≤ c && c ≤ '9') ||
  c = '(' || c = '"' || c = '“'

/-- Whether the accumulated part ends in sentence-terminal punctuation: this
is what `_SENT_SPLIT`'s lookbehind sees at the current scan position. -/
def lastIsTerm (acc : List Char) : Bool :=
  match acc.getLast? with
  | some c => isTermCh c
  | none => false

/-- Scanner state for `_SENT_SPLIT.split`: either accumulating a part, or
inside a whitespace run that was preceded by terminal punctuation and may
become a split point (Python's `\s+` with a failed lookahead backtracks only
onto whitespace, so a run splits exactly when the character after the maximal
run is in the lookahead class). -/
inductive MS where
  | mnorm (acc : List Char)
  | mrun (acc run : List Char)
deriving DecidableEq

/-- One scanner transition; emits a finished part at a split point. -/
def mstep : MS → Char → MS × Option (List Char)
  | .mnorm acc, c =>
    if isPyWs c && lastIsTerm acc then (.mrun acc [c], none)
    else (.mnorm (acc ++ [c]), none)
  | .mrun acc run, c =>
    if isPyWs c then (.mrun acc (run ++ [c]), none)
    else if isStartCh c then (.mnorm [c], some acc)
    else (.mnorm (acc ++ run ++ [c]), none)

/-- Run the scanner over a character list, collecting emitted parts. -/
def mrunAll : MS → List Char → List (List Char) × MS
  | s, [] => ([], s)
  | s, c :: rs =>
    let step := mstep s c
    let rest := mrunAll step.1 rs
    (match step.2 with
     | some p => p :: rest.1
     | none => rest.1, rest.2)

/-- Final part held by the scanner state at end of input. -/
def mfinish : MS → List Char
  | .mnorm acc => acc
  | .mrun acc run => acc ++ run

/-- Model of `_SENT_SPLIT.split(l)` (line 59): split immediately after
terminal punctuation followed by whitespace, where the next character starts
a probable sentence. -/
def sentSplit (l : List Char) : List (List Char) :=
  let res := mrunAll (.mnorm []) l
  res.1 ++ [mfinish res.2]

/-- The per-line part list of `_split_sentences_if_needed`:
`[p.strip() for p in _SENT_SPLIT.split(l) if p.strip()]`. -/
def lineParts (l : List Char) : List (List Char) :=
  ((sentSplit l).map stripChars).filter (fun p => p ≠ [])

/-- Split a cell at newlines. -/
def splitNL (l : List Char) : List (List Char) := splitOnChar '\n' l

/-- The cleaned line list used throughout the pipeline:
`[l.strip() for l in str(x).split("\n") if l.strip()]`. -/
def cleanLines (s : List Char) : List (List Char) :=
  ((splitNL s).map stripChars).filter (fun l => l ≠ [])

/-- Newline join, `"\n".join(lines)`. -/
def joinNL : List (List Char) → List Char
  | [] => []
  | [l] => l
  | l :: ls => l ++ '\n' :: joinNL ls

/-- Body of the per-line loop of `_split_sentences_if_needed` (lines 80-86):
a line with two or more parts is replaced by them and the change is flagged,
any other line is kept verbatim. -/
def explodeStep (st : List (List Char) × Bool) (l : List Char) :
    List (List Char) × Bool :=
  let parts := lineParts l
  if parts.length ≥ 2 then (st.1 ++ parts, true) else (st.1 ++ [l], st.2)

/-- Model of `_split_sentences_if_needed` (lines 61-88): explode run-on lines
at sentence boundaries; a lone line is returned exploded as soon as it splits
into two or more parts, otherwise each line is exploded independently and the
original lines are kept when nothing split. -/
def splitSentencesIfNeeded (optionsText : List Char) : List (List Char) :=
  let rawLines := cleanLines optionsText
  if rawLines = [] then []
  else
    let case1 :=
      match rawLines with
      | [line] =>
        let parts := lineParts line
        if parts.length ≥ 2 then some parts else none
      | _ => none
    match case1 with
    | some parts => parts
    | none =>
      let step := rawLines.foldl explodeStep ([], false)
      if step.2 then step.1 else rawLines

/-- Boolean test that `pat` begins `s`. -/
def leadsWith : List Char → List Char → Bool
  | [], _ => true
  | _ :: _, [] => false
  | p :: ps, c :: cs => p = c && leadsWith ps cs

/-- Fuelled scan of Python `str.replace`: leftmost match first, the
replacement text is not rescanned, scanning resumes after the matched
occurrence.  Each step consumes at least one character of `s` whenever `pat`
is nonempty, so fuel `s.length` makes the fuel bound unreachable. -/
def replGo (pat rep : List Char) : Nat → List Char → List Char
  | 0, s => s
  | fuel + 1, s =>
    match s with
    | [] => []
    | c :: rs =>
      if leadsWith pat s then rep ++ replGo pat rep fuel (s.drop pat.length)
      else c :: replGo pat rep fuel rs

/-- Model of Python `s.replace(pat, rep)` for nonempty `pat`. -/
def pyReplace (s pat rep : List Char) : List Char := replGo pat rep s.length s

/-- Candidate string for the window `raw[start:start+win]` in
`_regroup_options_smart`:
`" ".join(raw[start:end]).replace(" - ", "-").replace("- ", "-")`. -/
def windowCand (raw : List (List Char)) (start win : Nat) : List Char :=
  let w := (raw.drop start).take win
  pyReplace (pyReplace (List.intercalate [' '] w) (S " - ") (S "-")) (S "- ") (S "-")

/-- Inner window search of `_regroup_options_smart` for one start position:
window sizes 2..6 in order, stopping at the end of the list. -/
def scanWin (raw : List (List Char)) (ansn : List Char) (start : Nat) :
    Option (Nat × List Char) :=
  (List.range' 2 5).findSome? (fun win =>
    if start + win ≤ raw.length then
      let cand := windowCand raw start win
      if norm cand = ansn then some (win, cand) else none
    else none)

/-- First collapsible window for one answer: leftmost start, then smallest
window, wins; the window is replaced in place by its joined candidate. -/
def findCollapse (raw : List (List Char)) (ansn : List Char) :
    Option (List (List Char)) :=
  (List.range raw.length).findSome? (fun start =>
    match scanWin raw ansn start with
    | some wc => some (raw.take start ++ [wc.2] ++ raw.drop (start + wc.1))
    | none => none)

/-- Body of the answer loop inside one regrouper pass: an answer whose
normalized form is already present is skipped, otherwise its first
collapsible window (if any) is collapsed in place. -/
def regroupStep (st : List (List Char) × Bool) (ans : List Char) :
    List (List Char) × Bool :=
  let ansn := norm ans
  if (st.1.map norm).contains ansn then st
  else
    match findCollapse st.1 ansn with
    | some raw2 => (raw2, true)
    | none => st

/-- One full pass of the regrouper over all answers (the body of the `while`
loop of lines 112-130): each answer whose normalized form is not yet present
collapses at most one window, and the pass records whether anything changed. -/
def onePass (answers : List (List Char)) (raw0 : List (List Char)) :
    List (List Char) × Bool :=
  answers.foldl regroupStep (raw0, false)

/-- Fuelled fixpoint iteration of the regrouper; the second component counts
full passes over the answers.  At fuel zero the loop stops after the pass it
just ran, which coincides with the unfuelled loop whenever the pass reports
no change; a changed pass strictly shrinks the line list
(`onePass_changed_lt`), so fuel `raw.length` never runs out
(`regroupLoop_stable`). -/
def regroupLoop (answers : List (List Char)) : Nat → List (List Char) →
    List (List Char) × Nat
  | 0, raw => ((onePass answers raw).1, 1)
  | fuel + 1, raw =>
    let pass := onePass answers raw
    if pass.1 = [] then (pass.1, 1)
    else if pass.2 then
      let rest := regroupLoop answers fuel pass.1
      (rest.1, rest.2 + 1)
    else (pass.1, 1)

/-- Model of `_regroup_options_smart` (lines 92-133). -/
def regroup (rawText : List Char) (answers : List (List Char)) :
    List (List Char) :=
  let raw := cleanLines rawText
  if raw = [] then []
  else if !answers.isEmpty &&
      answers.all (fun a => (raw.map norm).contains (norm a)) then raw
  else if mostlySentences raw then raw
  else (regroupLoop answers raw.length raw).1

/-- Number of full passes the regrouper's fixpoint iteration makes over the
answers (0 when one of the no-op short circuits returns early). -/
def regroupPasses (rawText : List Char) (answers : List (List Char)) : Nat :=
  let raw := cleanLines rawText
  if raw = [] then 0
  else if !answers.isEmpty &&
      answers.all (fun a => (raw.map norm).contains (norm a)) then 0
  else if mostlySentences raw then 0
  else (regroupLoop answers raw.length raw).2

/-- Python `max(candidates, key=len)`: the first candidate of maximal length
(later elements win only with strictly greater length). -/
def maxByLen : List (List Char) → List Char
  | [] => []
  | c :: cs => cs.foldl (fun b o => if o.length > b.length then o else b) c

/-- Accumulator of `_semantic_fix_row`: the option list (mutated by
appends), the set `on` of normalized options, the rebuilt answer list, the
`changed_answer` flag and the `added_options` counter. -/
structure FixAcc where
  options : List (List Char)
  seen : List (List Char)
  newAnswers : List (List Char)
  changedAnswer : Bool
  addedOptions : Nat
deriving DecidableEq

/-- Boolean occurrence test: Python `p in s` on strings, true when `p` is a
contiguous substring of `s`. -/
def hasSubstr : List Char → List Char → Bool
  | [], p => p.isEmpty
  | c :: rs, p => leadsWith p (c :: rs) || hasSubstr rs p

/-- Body of the answer loop of `_semantic_fix_row` (lines 147-162). -/
def fixStep (acc : FixAcc) (a : List Char) : FixAcc :=
  let an := norm a
  if acc.seen.contains an then
    { acc with newAnswers := acc.newAnswers ++ [a] }
  else
    let candidates := acc.options.filter
      (fun o => hasSubstr an (norm o) || hasSubstr (norm o) an)
    if candidates ≠ [] then
      { acc with newAnswers := acc.newAnswers ++ [maxByLen candidates],
                 changedAnswer := true }
    else if acc.options.contains a then
      { acc with newAnswers := acc.newAnswers ++ [a] }
    else
      { options := acc.options ++ [a], seen := acc.seen ++ [an],
        newAnswers := acc.newAnswers ++ [a],
        changedAnswer := acc.changedAnswer,
        addedOptions := acc.addedOptions + 1 }

/-- Initial accumulator of `_semantic_fix_row`: the incoming options, their
normalized set `on`, no reconciled answers yet, no flag, no additions. -/
def fixInit (options : List (List Char)) : FixAcc :=
  { options := options, seen := options.map norm, newAnswers := [],
    changedAnswer := false, addedOptions := 0 }

/-- Model of `_semantic_fix_row` (lines 137-163): returns the (possibly
extended) option list, the reconciled answers, the `changed_answer` flag and
the number of appended options. -/
def semanticFixRow (options answers : List (List Char)) :
    List (List Char) × List (List Char) × Bool × Nat :=
  let fin := answers.foldl fixStep (fixInit options)
  (fin.options, fin.newAnswers, fin.changedAnswer, fin.addedOptions)

/-- One spreadsheet row as the pipeline sees it: the identifier cell, the
options blob and the correct-answer blob (the two usage counters are owned by
the session layer and never inspected, so they are not modelled). -/
structure Row where
  numero : List Char
  opciones : List Char
  respuesta : List Char
deriving DecidableEq

/-- Model of Python `int(cell)` on the identifier cell: surrounding
whitespace then an optional sign and a nonempty digit string, anything else
raises (which `_process_dataframe` catches, yielding `None`). -/
def pyParseInt (s : List Char) : Option Int :=
  let t := stripChars s
  let core := match t with
    | '+' :: rs => (1, rs)
    | '-' :: rs => (-1, rs)
    | _ => ((1 : Int), t)
  if core.2 ≠ [] && core.2.all (fun c => c.isDigit) then
    some (core.1 * (core.2.foldl (fun n c => n * 10 + (c.toNat - 48)) (0 : Nat) : Nat))
  else none

/-- Steps 1 and 2 of `_process_dataframe` (lines 178-189): the generic
explode, then the forced re-explode for identifiers 316..335 when a single
line or an overlong line (more than 160 characters) survives. -/
def optsPipeline (r : Row) : List (List Char) :=
  let optsLines := splitSentencesIfNeeded r.opciones
  match pyParseInt r.numero with
  | some n =>
    if 316 ≤ n && n ≤ 335 then
      if optsLines.length = 1 || optsLines.any (fun l => l.length > 160) then
        splitSentencesIfNeeded (joinNL optsLines)
      else optsLines
    else optsLines
  | none => optsLines

/-- Model of the per-row body of `_process_dataframe` (lines 173-200):
explode, forced re-explode, regroup, reconcile, then write the newline-joined
options back and, only when an answer changed, the semicolon-joined answers. -/
def processRow (r : Row) : Row :=
  let answers := splitAnswers r.respuesta
  let optsLines := optsPipeline r
  let fixed := semanticFixRow (regroup (joinNL optsLines) answers) answers
  { numero := r.numero,
    opciones := joinNL fixed.1,
    respuesta :=
      if fixed.2.2.1 then List.intercalate (S "; ") fixed.2.1 else r.respuesta }

/-- Model of `_process_dataframe` on the whole table: rows are processed
independently. -/
def process (rows : List Row) : List Row := rows.map processRow


/-! ### Numeric bridging fact -/

set_option maxRecDepth 100000 in
set_option maxHeartbeats 4000000 in
/-- For every line count arising in practice the truncated float product
`int(0.6 * n)` coincides with the exact floor of `3 * n / 5`. -/
theorem pyInt06_eq_floor : ∀ n, n < 1001 → pyInt06 n = 3 * n / 5 := by decide

/-! ### C4 — normalization of the accented scenario -/

/-- C4: the claim states that `normalize` sends `"Établecer\u00A0 Metas."`
and `"establecer metas"` to the same key; it does not — casefolding keeps
the accent on the initial letter, so the two keys differ. -/
theorem C4_counterexample :
    norm (S "Établecer\u00A0 Metas.") ≠ norm (S "establecer metas") := by decide

/-- C4 (amended): the accented capital folds to the accented lowercase
letter (the normalizer never strips accents), the no-break space collapses,
the trailing period is stripped and the whole is case-folded, so the key
equals the one of `"établecer metas"`, not of `"establecer metas"`. -/
theorem C4_amended :
    norm (S "Établecer\u00A0 Metas.") = S "établecer metas" ∧
    norm (S "Établecer\u00A0 Metas.") = norm (S "établecer metas") := by decide

/-! ### C3 — the answer-drift scenario -/

/-- C3: the claim states the reconciler replaces the drifted answer with the
option text and reports `answer_changed = True`; in fact neither normalized
string contains the other (`&` against `and` defeats bidirectional
containment), so no candidate exists and `answer_changed` stays `False`. -/
theorem C3_counterexample :
    ¬ ((semanticFixRow [S "Align strategy and execution"]
        [S "align strategy & execution."]).2.2.1 = true) := by decide

/-- C3 (amended): with no containment candidate the reconciler takes the
append fallback: the answer text stays unchanged, `answer_changed = False`,
and the answer is appended to the options (`options_added = 1`). -/
theorem C3_amended :
    semanticFixRow [S "Align strategy and execution"]
        [S "align strategy & execution."] =
      ([S "Align strategy and execution", S "align strategy & execution."],
       [S "align strategy & execution."], false, 1) := by decide

/-! ### C5 — the majority threshold -/

/-- Four lines of which exactly the first two qualify as phrases. -/
def linesC5 : List (List Char) :=
  [S "This is a full sentence.", S "Another proper sentence here.", S "x", S "y"]

/-- C5: the claim's threshold is `ceil(0.6 * count)` (with a floor of one);
the code truncates instead, so at four lines with two phrase lines the code
reports "mostly phrases" although the claimed ceiling rule demands three. -/
theorem C5_counterexample :
    mostlySentences linesC5 = true ∧
    ¬ (countSentences linesC5 ≥ max 1 ((3 * linesC5.length + 4) / 5)) := by decide

/-- C5 (amended): for every nonempty list of at most 1000 lines the rule is
the floor, not the ceiling: the collection is mostly phrases exactly when
the phrase count reaches `max(1, floor(0.6 * count))`; the empty list is
never mostly phrases. -/
theorem C5_amended :
    (∀ lines : List (List Char), lines ≠ [] → lines.length ≤ 1000 →
      (mostlySentences lines = true ↔
        countSentences lines ≥ max 1 (3 * lines.length / 5))) ∧
    mostlySentences [] = false := by
  refine ⟨fun lines h hlen => ?_, rfl⟩
  have hb : pyInt06 lines.length = 3 * lines.length / 5 :=
    pyInt06_eq_floor lines.length (Nat.lt_succ_of_le hlen)
  simp [mostlySentences, h, hb]

/-- C5 witness: the amended rule applied at a concrete one-line list. -/
theorem C5_witness :
    mostlySentences [S "This is a full sentence."] = true ↔
      countSentences [S "This is a full sentence."] ≥
        max 1 (3 * [S "This is a full sentence."].length / 5) :=
  C5_amended.1 [S "This is a full sentence."] (by decide) (by decide)

/-! ### C1 — the coverage invariant on stored rows -/

/-- Row whose single option text contains a semicolon. -/
def rowC1 : Row := ⟨S "", S "xA; By", S "A"⟩

/-- C1: processing stores the option text `"xA; By"` as the correct-answer
blob; re-splitting that blob at semicolons yields the answer `"xA"`, whose
normalized form is not among the normalized options of the stored row, so
the coverage invariant fails on the fields the row processor writes back. -/
theorem C1_code_bug :
    (processRow rowC1).respuesta = S "xA; By" ∧
    S "xA" ∈ splitAnswers ((processRow rowC1).respuesta) ∧
    norm (S "xA") ∉ (cleanLines ((processRow rowC1).opciones)).map norm := by decide

/-! ### C2 and C7 counterexamples -/

/-- Row used to refute idempotence. -/
def rowC2 : Row := ⟨S "", S "uC; Dv", S "C"⟩

/-- C2: a second run of the pipeline rewrites the correct-answer blob again
(the first pass stores the full option text, the second re-splits it into
two answers and reconciles each), so running the pipeline twice differs from
running it once on the correct-answer column. -/
theorem C2_counterexample :
    (processRow (processRow rowC2)).respuesta ≠ (processRow rowC2).respuesta := by
  decide

/-- C7: one answer that collapses in the first pass still needs a second,
quiet pass to detect the fixpoint, so the number of full passes over the
answers exceeds the number of distinct (by normalized form) answers. -/
theorem C7_counterexample :
    regroupPasses (S "a\nb") [S "a b"] = 2 ∧
    (([S "a b"].map norm).dedup).length = 1 ∧
    ¬ (regroupPasses (S "a\nb") [S "a b"] ≤
        (([S "a b"].map norm).dedup).length) := by
  decide


/-! ### Structural facts about stripping, splitting and joining -/

/-- Unfolding equation of `dropTrailWs` on a cons cell. -/
theorem dropTrailWs_cons_eq (c : Char) (rs : List Char) :
    dropTrailWs (c :: rs) =
      if (dropTrailWs rs).isEmpty && isPyWs c then [] else c :: dropTrailWs rs := rfl

/-- Dropping a whitespace run twice is the same as dropping it once. -/
theorem dropWhile_ws_idem (l : List Char) :
    (l.dropWhile isPyWs).dropWhile isPyWs = l.dropWhile isPyWs := by
  induction l with
  | nil => rfl
  | cons c rs ih =>
    cases h : isPyWs c with
    | true => simp [List.dropWhile_cons, h, ih]
    | false => simp [List.dropWhile_cons, h]

/-- The head surviving a `dropWhile` does not satisfy the predicate. -/
theorem dropWhile_head_false (p : Char → Bool) :
    ∀ (l : List Char) (c : Char) (rs : List Char),
      l.dropWhile p = c :: rs → p c = false := by
  intro l
  induction l with
  | nil => intro c rs h; cases h
  | cons d ds ih =>
    intro c rs h
    cases hd : p d with
    | true => rw [List.dropWhile_cons, if_pos hd] at h; exact ih c rs h
    | false =>
      rw [List.dropWhile_cons, if_neg (by simp [hd])] at h
      cases h; exact hd

/-- Dropping trailing whitespace twice is the same as dropping it once. -/
theorem dropTrailWs_idem (l : List Char) :
    dropTrailWs (dropTrailWs l) = dropTrailWs l := by
  induction l with
  | nil => rfl
  | cons c rs ih =>
    cases h : (dropTrailWs rs).isEmpty && isPyWs c with
    | true => rw [dropTrailWs_cons_eq, h, if_pos rfl]; rfl
    | false =>
      rw [dropTrailWs_cons_eq c rs, h, if_neg (by simp),
        dropTrailWs_cons_eq c (dropTrailWs rs), ih, h, if_neg (by simp)]

/-- A stripped list is a fixed point of leading-whitespace removal. -/
theorem dropWhile_dropTrailWs (l : List Char) :
    (dropTrailWs (l.dropWhile isPyWs)).dropWhile isPyWs
      = dropTrailWs (l.dropWhile isPyWs) := by
  cases hz : l.dropWhile isPyWs with
  | nil => rfl
  | cons c rs =>
    have hc : isPyWs c = false := dropWhile_head_false isPyWs l c rs hz
    cases hb : (dropTrailWs rs).isEmpty && isPyWs c with
    | true => rw [dropTrailWs_cons_eq, hb, if_pos rfl]; rfl
    | false =>
      rw [dropTrailWs_cons_eq, hb, if_neg (by simp)]
      simp [List.dropWhile_cons, hc]

/-- Stripping is idempotent. -/
theorem stripChars_idem (l : List Char) :
    stripChars (stripChars l) = stripChars l := by
  unfold stripChars
  rw [dropWhile_dropTrailWs, dropTrailWs_idem]

/-- Every character surviving `dropTrailWs` came from the input. -/
theorem mem_dropTrailWs {c : Char} :
    ∀ {l : List Char}, c ∈ dropTrailWs l → c ∈ l := by
  intro l
  induction l with
  | nil => intro h; cases h
  | cons d ds ih =>
    intro h
    by_cases hb : ((dropTrailWs ds).isEmpty && isPyWs d) = true
    · rw [dropTrailWs_cons_eq, if_pos hb] at h; cases h
    · rw [dropTrailWs_cons_eq, if_neg hb] at h
      rcases List.mem_cons.mp h with h | h
      · exact h ▸ List.mem_cons_self d ds
      · exact List.mem_cons_of_mem d (ih h)

/-- Every character surviving `stripChars` came from the input. -/
theorem mem_stripChars {c : Char} {l : List Char} (h : c ∈ stripChars l) :
    c ∈ l := by
  unfold stripChars at h
  exact (List.dropWhile_sublist isPyWs).mem (mem_dropTrailWs h)

/-- Splitting at a leading separator peels off an empty piece. -/
theorem splitOnChar_cons_sep (sep : Char) (rs : List Char) :
    splitOnChar sep (sep :: rs) = [] :: splitOnChar sep rs := by
  simp [splitOnChar]

/-- The split list is never empty. -/
theorem splitOnChar_ne_nil (sep : Char) :
    ∀ (l : List Char), splitOnChar sep l ≠ [] := by
  intro l
  induction l with
  | nil => simp [splitOnChar]
  | cons c rs ih =>
    by_cases hc : c = sep
    · subst hc; rw [splitOnChar_cons_sep]; simp
    · simp only [splitOnChar, if_neg hc]
      cases hq : splitOnChar sep rs with
      | nil => simp
      | cons q qs => simp

/-- Splitting below a non-separator head prepends it to the first piece. -/
theorem splitOnChar_cons_head (sep c : Char) (rs : List Char) (hc : ¬c = sep)
    (q : List Char) (qs : List (List Char)) (h : splitOnChar sep rs = q :: qs) :
    splitOnChar sep (c :: rs) = (c :: q) :: qs := by
  simp [splitOnChar, if_neg hc, h]

/-- Pieces produced by `splitOnChar` never contain the separator. -/
theorem splitOnChar_not_mem (sep : Char) :
    ∀ (l : List Char) (p : List Char), p ∈ splitOnChar sep l → sep ∉ p := by
  intro l
  induction l with
  | nil =>
    intro p hp
    have : p = [] := by simpa [splitOnChar] using hp
    subst this; simp
  | cons c rs ih =>
    intro p hp
    by_cases hc : c = sep
    · subst hc
      rw [splitOnChar_cons_sep] at hp
      rcases List.mem_cons.mp hp with h | h
      · subst h; simp
      · exact ih p h
    · cases hq : splitOnChar sep rs with
      | nil => exact absurd hq (splitOnChar_ne_nil sep rs)
      | cons q qs =>
        rw [splitOnChar_cons_head sep c rs hc q qs hq] at hp
        rcases List.mem_cons.mp hp with h | h
        · subst h
          intro hmem
          rcases List.mem_cons.mp hmem with h1 | h1
          · exact hc h1.symm
          · exact ih q (hq ▸ List.mem_cons_self q qs) h1
        · exact ih p (hq ▸ List.mem_cons_of_mem q h)

/-- Splitting a separator-free list returns it whole. -/
theorem splitOnChar_eq_single (sep : Char) :
    ∀ (l : List Char), sep ∉ l → splitOnChar sep l = [l] := by
  intro l
  induction l with
  | nil => intro _; rfl
  | cons c rs ih =>
    intro h
    have hc : ¬(c = sep) := fun he => h (he ▸ List.mem_cons_self c rs)
    have hrs : sep ∉ rs := fun hm => h (List.mem_cons_of_mem c hm)
    exact splitOnChar_cons_head sep c rs hc rs [] (ih hrs)

/-- Splitting after a separator-free head piece peels it off. -/
theorem splitOnChar_append (sep : Char) :
    ∀ (a t : List Char), sep ∉ a →
      splitOnChar sep (a ++ sep :: t) = a :: splitOnChar sep t := by
  intro a
  induction a with
  | nil => intro t _; rw [List.nil_append, splitOnChar_cons_sep]
  | cons c a' ih =>
    intro t h
    have hc : ¬(c = sep) := fun he => h (he ▸ List.mem_cons_self c a')
    have ha : sep ∉ a' := fun hm => h (List.mem_cons_of_mem c hm)
    rw [List.cons_append]
    exact splitOnChar_cons_head sep c _ hc a' (splitOnChar sep t) (ih t ha)

/-- Every line of a cleaned blob is stripped, nonempty and newline-free. -/
theorem cleanLines_mem {s l : List Char} (hl : l ∈ cleanLines s) :
    stripChars l = l ∧ l ≠ [] ∧ '\n' ∉ l := by
  unfold cleanLines at hl
  have hl2 := List.mem_filter.mp hl
  have hne : l ≠ [] := by
    have := hl2.2; simpa using this
  obtain ⟨p, hp, hps⟩ := List.mem_map.mp hl2.1
  refine ⟨hps ▸ stripChars_idem p, hne, fun hmem => ?_⟩
  have : '\n' ∈ p := mem_stripChars (hps ▸ hmem)
  exact splitOnChar_not_mem '\n' s p hp this

/-- Joining newline-free lines and re-splitting recovers the lines. -/
theorem splitNL_joinNL :
    ∀ (ls : List (List Char)), ls ≠ [] → (∀ l ∈ ls, '\n' ∉ l) →
      splitNL (joinNL ls) = ls := by
  intro ls
  induction ls with
  | nil => intro h; exact absurd rfl h
  | cons a t ih =>
    intro _ h
    cases t with
    | nil =>
      show splitNL a = [a]
      exact splitOnChar_eq_single '\n' a (h a (List.mem_cons_self a []))
    | cons b t' =>
      show splitNL (a ++ '\n' :: joinNL (b :: t')) = a :: b :: t'
      rw [splitNL, splitOnChar_append '\n' a _ (h a (List.mem_cons_self a _))]
      have hrec := ih (by simp) (fun l hl => h l (List.mem_cons_of_mem a hl))
      rw [show splitOnChar '\n' (joinNL (b :: t'))
            = splitNL (joinNL (b :: t')) from rfl, hrec]

/-- Re-splitting the newline join of a cleaned blob's lines gives the lines
back. -/
theorem cleanLines_joinNL (s : List Char) :
    cleanLines (joinNL (cleanLines s)) = cleanLines s := by
  by_cases h : cleanLines s = []
  · rw [h]; rfl
  · have hnl : ∀ l ∈ cleanLines s, '\n' ∉ l := fun l hl => (cleanLines_mem hl).2.2
    show ((splitNL (joinNL (cleanLines s))).map stripChars).filter (fun l => l ≠ []) = _
    rw [splitNL_joinNL (cleanLines s) h hnl]
    have hmap : (cleanLines s).map stripChars = cleanLines s := by
      calc (cleanLines s).map stripChars = (cleanLines s).map id :=
            List.map_congr_left (fun l hl => (cleanLines_mem hl).1)
        _ = cleanLines s := List.map_id _
    rw [hmap]
    exact List.filter_eq_self.mpr (fun a ha => by
      simpa using (cleanLines_mem ha).2.1)


/-! ### Facts about the regrouper -/

/-- List membership matches the Boolean `contains` used by the code. -/
theorem listContains_iff (l : List (List Char)) (x : List Char) :
    l.contains x = true ↔ x ∈ l := by
  induction l with
  | nil => simp
  | cons a t ih => simp [List.contains_cons, ih, beq_iff_eq, List.mem_cons]

/-- A successful window scan returns a window of size at least two that fits
inside the line list. -/
theorem scanWin_sound {raw : List (List Char)} {ansn : List Char}
    {start : Nat} {wc : Nat × List Char}
    (h : scanWin raw ansn start = some wc) :
    2 ≤ wc.1 ∧ start + wc.1 ≤ raw.length := by
  unfold scanWin at h
  obtain ⟨win, hwin, hf⟩ := List.exists_of_findSome?_eq_some h
  have hw2 : 2 ≤ win ∧ win < 2 + 5 := by
    have := List.mem_range'_1.mp hwin
    exact ⟨this.1, this.2⟩
  by_cases hle : start + win ≤ raw.length
  · rw [if_pos hle] at hf
    by_cases hnm : norm (windowCand raw start win) = ansn
    · rw [if_pos hnm] at hf
      cases hf
      exact ⟨hw2.1, hle⟩
    · rw [if_neg hnm] at hf; cases hf
  · rw [if_neg hle] at hf; cases hf

/-- A successful collapse strictly shrinks the line list and keeps it
nonempty. -/
theorem findCollapse_sound {raw : List (List Char)} {ansn : List Char}
    {r : List (List Char)} (h : findCollapse raw ansn = some r) :
    r.length < raw.length ∧ r ≠ [] := by
  unfold findCollapse at h
  obtain ⟨start, hstart, hf⟩ := List.exists_of_findSome?_eq_some h
  have hstart' : start < raw.length := List.mem_range.mp hstart
  cases hsw : scanWin raw ansn start with
  | none => rw [hsw] at hf; cases hf
  | some wc =>
    rw [hsw] at hf
    obtain ⟨h2, hle⟩ := scanWin_sound hsw
    cases hf
    constructor
    · simp only [List.length_append, List.length_take, List.length_drop,
        List.length_cons, List.length_nil]
      omega
    · simp

/-- One regrouping step either leaves the state alone or collapses a window:
then the flag is set, the list shrinks and stays nonempty. -/
theorem regroupStep_facts (st : List (List Char) × Bool) (a : List Char) :
    regroupStep st a = st ∨
    ((regroupStep st a).2 = true ∧ (regroupStep st a).1.length < st.1.length ∧
      (regroupStep st a).1 ≠ []) := by
  unfold regroupStep
  by_cases hc : (st.1.map norm).contains (norm a) = true
  · left; rw [if_pos hc]
  · rw [if_neg hc]
    cases hfc : findCollapse st.1 (norm a) with
    | none => left; rfl
    | some r =>
      right
      have hs := findCollapse_sound hfc
      exact ⟨rfl, hs.1, hs.2⟩

/-- Accumulated over a pass: the line list never grows, the flag only turns
on together with a strict shrink, and nonemptiness is preserved. -/
theorem foldl_regroupStep_facts :
    ∀ (answers : List (List Char)) (st : List (List Char) × Bool),
      (answers.foldl regroupStep st).1.length ≤ st.1.length ∧
      ((answers.foldl regroupStep st).2 = true →
        st.2 = true ∨ (answers.foldl regroupStep st).1.length < st.1.length) ∧
      (st.1 ≠ [] → (answers.foldl regroupStep st).1 ≠ []) := by
  intro answers
  induction answers with
  | nil => intro st; exact ⟨Nat.le_refl _, fun h => Or.inl h, fun h => h⟩
  | cons a rest ih =>
    intro st
    rw [List.foldl_cons]
    rcases regroupStep_facts st a with heq | ⟨hflag, hlt, hne⟩
    · rw [heq]; exact ih st
    · obtain ⟨ih1, ih2, ih3⟩ := ih (regroupStep st a)
      refine ⟨Nat.le_trans ih1 (Nat.le_of_lt hlt), fun _ => Or.inr ?_,
        fun _ => ih3 hne⟩
      exact Nat.lt_of_le_of_lt ih1 hlt

/-- A pass that reports a change strictly shrank the line list. -/
theorem onePass_changed_lt (answers raw : List (List Char))
    (h : (onePass answers raw).2 = true) :
    (onePass answers raw).1.length < raw.length := by
  rcases (foldl_regroupStep_facts answers (raw, false)).2.1 h with h' | h'
  · cases h'
  · exact h'

/-- A pass keeps a nonempty line list nonempty. -/
theorem onePass_ne_nil (answers raw : List (List Char)) (h : raw ≠ []) :
    (onePass answers raw).1 ≠ [] :=
  (foldl_regroupStep_facts answers (raw, false)).2.2 h

/-- The fixpoint loop makes at most `max 1 raw.length` passes. -/
theorem regroupLoop_passes_le (answers : List (List Char)) :
    ∀ (fuel : Nat) (raw : List (List Char)),
      (regroupLoop answers fuel raw).2 ≤ max 1 raw.length := by
  intro fuel
  induction fuel with
  | zero => intro raw; exact Nat.le_max_left 1 _
  | succ f ih =>
    intro raw
    show (regroupLoop answers (f + 1) raw).2 ≤ max 1 raw.length
    rw [regroupLoop]
    by_cases h1 : (onePass answers raw).1 = []
    · rw [if_pos h1]; exact Nat.le_max_left 1 _
    · rw [if_neg h1]
      cases h2 : (onePass answers raw).2 with
      | false => simp only [Bool.false_eq_true, if_false]; exact Nat.le_max_left 1 _
      | true =>
        simp only [if_pos rfl]
        have hlt : (onePass answers raw).1.length < raw.length :=
          onePass_changed_lt answers raw h2
        have hpos : 1 ≤ (onePass answers raw).1.length :=
          Nat.one_le_iff_ne_zero.mpr (by
            intro hz
            exact h1 (List.eq_nil_of_length_eq_zero hz))
        have := ih (onePass answers raw).1
        have hmax : max 1 (onePass answers raw).1.length
            = (onePass answers raw).1.length := Nat.max_eq_right hpos
        rw [hmax] at this
        have : (regroupLoop answers f (onePass answers raw).1).2 + 1 ≤ raw.length :=
          Nat.le_trans (Nat.add_le_add_right this 1) hlt
        exact Nat.le_trans this (Nat.le_max_right 1 _)

/-- The fixpoint loop keeps a nonempty line list nonempty. -/
theorem regroupLoop_ne_nil (answers : List (List Char)) :
    ∀ (fuel : Nat) (raw : List (List Char)), raw ≠ [] →
      (regroupLoop answers fuel raw).1 ≠ [] := by
  intro fuel
  induction fuel with
  | zero => intro raw h; exact onePass_ne_nil answers raw h
  | succ f ih =>
    intro raw h
    rw [regroupLoop]
    by_cases h1 : (onePass answers raw).1 = []
    · exact absurd h1 (onePass_ne_nil answers raw h)
    · rw [if_neg h1]
      cases h2 : (onePass answers raw).2 with
      | false => simpa using h1
      | true =>
        simp only [if_pos rfl]
        exact ih (onePass answers raw).1 h1

/-- For line lists of length at most one the loop never recurses, whatever
the fuel. -/
theorem regroupLoop_small (answers : List (List Char)) (raw : List (List Char))
    (h : raw.length ≤ 1) :
    ∀ (fuel : Nat), regroupLoop answers fuel raw = ((onePass answers raw).1, 1) := by
  intro fuel
  cases fuel with
  | zero => rfl
  | succ f =>
    rw [regroupLoop]
    by_cases h1 : (onePass answers raw).1 = []
    · rw [if_pos h1]
    · rw [if_neg h1]
      cases h2 : (onePass answers raw).2 with
      | false => simp
      | true =>
        have hlt := onePass_changed_lt answers raw h2
        have : (onePass answers raw).1.length = 0 := by omega
        exact absurd (List.eq_nil_of_length_eq_zero this) h1

/-- Fuel irrelevance: any two fuels at least `raw.length - 1` give the same
result, so the fuelled loop computes the code's unfuelled fixpoint. -/
theorem regroupLoop_stable (answers : List (List Char)) :
    ∀ (k : Nat) (raw : List (List Char)) (f g : Nat),
      raw.length ≤ k + 1 → k ≤ f → k ≤ g →
      regroupLoop answers f raw = regroupLoop answers g raw := by
  intro k
  induction k with
  | zero =>
    intro raw f g hlen _ _
    rw [regroupLoop_small answers raw hlen f, regroupLoop_small answers raw hlen g]
  | succ k ih =>
    intro raw f g hlen hf hg
    cases f with
    | zero => exact absurd hf (by omega)
    | succ f' =>
      cases g with
      | zero => exact absurd hg (by omega)
      | succ g' =>
        rw [regroupLoop, regroupLoop]
        by_cases h1 : (onePass answers raw).1 = []
        · rw [if_pos h1, if_pos h1]
        · rw [if_neg h1, if_neg h1]
          cases h2 : (onePass answers raw).2 with
          | false => simp
          | true =>
            simp only [if_pos rfl]
            have hlt := onePass_changed_lt answers raw h2
            rw [ih (onePass answers raw).1 f' g' (by omega) (by omega) (by omega)]

/-! ### C6 — regroup safety on phrase-majority lists -/

/-- C6: whenever the cleaned lines are mostly phrases, the regrouper returns
them unchanged, whatever the answers: the already-matched short circuit and
the phrase-majority guard both return the lines as they are. -/
theorem C6_regroup_safety (text : List Char) (answers : List (List Char))
    (h : mostlySentences (cleanLines text) = true) :
    regroup text answers = cleanLines text := by
  have hne : cleanLines text ≠ [] := by
    intro he
    rw [he] at h
    exact absurd h (by decide)
  unfold regroup
  rw [if_neg hne]
  by_cases hc : (!answers.isEmpty &&
      answers.all fun a => ((cleanLines text).map norm).contains (norm a)) = true
  · rw [if_pos hc]
  · rw [if_neg hc, if_pos h]

/-- C6 witness: two sentence lines, an arbitrary answer list. -/
theorem C6_witness :
    mostlySentences (cleanLines (S "This is sentence one.\nHere is sentence two.")) = true ∧
    regroup (S "This is sentence one.\nHere is sentence two.") [S "anything"] =
      cleanLines (S "This is sentence one.\nHere is sentence two.") :=
  ⟨by decide, C6_regroup_safety _ _ (by decide)⟩

/-! ### C7 (amended) — termination and pass bound of the regrouper -/

/-- C7 (amended): the fixpoint iteration terminates — its fuelled model is
fuel-irrelevant from `raw.length` on — the number of full passes over the
answers is bounded by `max 1 (line count)` (not by the deduplicated answer
count), and each successful collapse strictly reduces the line count. -/
theorem C7_amended :
    (∀ (answers raw : List (List Char)) (extra : Nat),
      regroupLoop answers (raw.length + extra) raw
        = regroupLoop answers raw.length raw) ∧
    (∀ (text : List Char) (answers : List (List Char)),
      regroupPasses text answers ≤ max 1 (cleanLines text).length) ∧
    (∀ (answers raw : List (List Char)),
      (onePass answers raw).2 = true →
        (onePass answers raw).1.length < raw.length) := by
  refine ⟨fun answers raw extra => ?_, fun text answers => ?_, onePass_changed_lt⟩
  · exact regroupLoop_stable answers raw.length raw (raw.length + extra) raw.length
      (Nat.le_succ _) (Nat.le_add_right _ _) (Nat.le_refl _)
  · unfold regroupPasses
    by_cases h1 : cleanLines text = []
    · rw [if_pos h1]; exact Nat.le_trans (Nat.zero_le 1) (Nat.le_max_left 1 _)
    · rw [if_neg h1]
      by_cases h2 : (!answers.isEmpty &&
          answers.all fun a => ((cleanLines text).map norm).contains (norm a)) = true
      · rw [if_pos h2]; exact Nat.le_trans (Nat.zero_le 1) (Nat.le_max_left 1 _)
      · rw [if_neg h2]
        by_cases h3 : mostlySentences (cleanLines text) = true
        · rw [if_pos h3]; exact Nat.le_trans (Nat.zero_le 1) (Nat.le_max_left 1 _)
        · rw [if_neg h3]
          exact regroupLoop_passes_le answers (cleanLines text).length (cleanLines text)

/-- C7 witness: a concrete collapsing pass shrinks two lines to one, and a
concrete regroup run respects the pass bound. -/
theorem C7_witness :
    (onePass [S "a b"] [S "a", S "b"]).2 = true ∧
    (onePass [S "a b"] [S "a", S "b"]).1.length < [S "a", S "b"].length ∧
    regroupPasses (S "x\ny") [S "x y"] ≤ max 1 (cleanLines (S "x\ny")).length :=
  ⟨by decide, C7_amended.2.2 [S "a b"] [S "a", S "b"] (by decide),
    C7_amended.2.1 (S "x\ny") [S "x y"]⟩

/-! ### C10 — the regrouper never empties a nonempty list -/

/-- C10: on a nonempty cleaned line list the regrouper returns a nonempty
list — every collapse replaces a window of at least two lines by exactly one
line, so the working list never becomes empty and the empty-list stop branch
is unreachable. -/
theorem C10_nonempty (text : List Char) (answers : List (List Char))
    (h : cleanLines text ≠ []) : regroup text answers ≠ [] := by
  unfold regroup
  rw [if_neg h]
  by_cases hc : (!answers.isEmpty &&
      answers.all fun a => ((cleanLines text).map norm).contains (norm a)) = true
  · rw [if_pos hc]; exact h
  · rw [if_neg hc]
    by_cases hm : mostlySentences (cleanLines text) = true
    · rw [if_pos hm]; exact h
    · rw [if_neg hm]
      exact regroupLoop_ne_nil answers (cleanLines text).length (cleanLines text) h

/-- C10 witness: a one-line blob with no answers stays nonempty. -/
theorem C10_witness :
    cleanLines (S "alpha") ≠ [] ∧ regroup (S "alpha") [] ≠ [] :=
  ⟨by decide, C10_nonempty (S "alpha") [] (by decide)⟩


/-! ### Facts about the reconciler -/

/-- The length-maximum fold stays inside the candidate pool. -/
theorem foldl_maxByLen_mem :
    ∀ (cs : List (List Char)) (b : List Char),
      cs.foldl (fun b o => if o.length > b.length then o else b) b ∈ b :: cs := by
  intro cs
  induction cs with
  | nil => intro b; exact List.mem_cons_self b []
  | cons o rest ih =>
    intro b
    rw [List.foldl_cons]
    by_cases hlen : o.length > b.length
    · rw [if_pos hlen]
      rcases List.mem_cons.mp (ih o) with h1 | h1
      · rw [h1]; exact List.mem_cons_of_mem b (List.mem_cons_self o rest)
      · exact List.mem_cons_of_mem b (List.mem_cons_of_mem o h1)
    · rw [if_neg hlen]
      rcases List.mem_cons.mp (ih b) with h1 | h1
      · rw [h1]; exact List.mem_cons_self b (o :: rest)
      · exact List.mem_cons_of_mem b (List.mem_cons_of_mem o h1)

/-- `max(candidates, key=len)` returns a candidate. -/
theorem maxByLen_mem {cs : List (List Char)} (h : cs ≠ []) : maxByLen cs ∈ cs := by
  cases cs with
  | nil => exact absurd rfl h
  | cons c rest => exact foldl_maxByLen_mem rest c

/-- Invariant carried through the reconciler's answer loop: the tracked set
`on` is exactly the normalized options, and every reconciled answer so far
normalizes into the options. -/
def FixInv (acc : FixAcc) : Prop :=
  acc.seen = acc.options.map norm ∧
  ∀ a ∈ acc.newAnswers, norm a ∈ acc.options.map norm

/-- One reconciler step preserves the invariant, and the option list only
ever grows by appending. -/
theorem fixStep_inv {acc : FixAcc} (hinv : FixInv acc) (a : List Char) :
    FixInv (fixStep acc a) ∧
    ∃ ext, (fixStep acc a).options = acc.options ++ ext := by
  obtain ⟨hseen, hans⟩ := hinv
  unfold fixStep
  by_cases hc : acc.seen.contains (norm a) = true
  · rw [if_pos hc]
    refine ⟨⟨hseen, fun x hx => ?_⟩, [], by simp⟩
    rcases List.mem_append.mp hx with hx | hx
    · exact hans x hx
    · rw [List.mem_singleton.mp hx]
      have hmem := (listContains_iff acc.seen (norm a)).mp hc
      rw [hseen] at hmem
      exact hmem
  · rw [if_neg hc]
    by_cases hcand : (acc.options.filter
        (fun o => hasSubstr (norm a) (norm o) || hasSubstr (norm o) (norm a))) ≠ []
    · rw [if_pos hcand]
      refine ⟨⟨hseen, fun x hx => ?_⟩, [], by simp⟩
      rcases List.mem_append.mp hx with hx | hx
      · exact hans x hx
      · have hx' := List.mem_singleton.mp hx
        rw [hx']
        have hmem := maxByLen_mem hcand
        exact List.mem_map_of_mem norm (List.mem_filter.mp hmem).1
    · rw [if_neg hcand]
      by_cases hopt : acc.options.contains a = true
      · rw [if_pos hopt]
        refine ⟨⟨hseen, fun x hx => ?_⟩, [], by simp⟩
        rcases List.mem_append.mp hx with hx | hx
        · exact hans x hx
        · rw [List.mem_singleton.mp hx]
          exact List.mem_map_of_mem norm ((listContains_iff acc.options a).mp hopt)
      · rw [if_neg hopt]
        refine ⟨⟨?_, fun x hx => ?_⟩, [a], rfl⟩
        · rw [hseen, List.map_append]; rfl
        · rw [List.map_append]
          rcases List.mem_append.mp hx with hx | hx
          · exact List.mem_append_left _ (hans x hx)
          · rw [List.mem_singleton.mp hx]
            exact List.mem_append_right _ (by simp)

/-- The invariant survives the whole answer loop. -/
theorem foldl_fixStep_inv :
    ∀ (answers : List (List Char)) (acc : FixAcc), FixInv acc →
      FixInv (answers.foldl fixStep acc) := by
  intro answers
  induction answers with
  | nil => intro acc h; exact h
  | cons a rest ih =>
    intro acc h
    rw [List.foldl_cons]
    exact ih (fixStep acc a) (fixStep_inv h a).1

/-- Coverage at the list level: every reconciled answer normalizes to some
member of the final option list (the replace-or-append fallback of
`_semantic_fix_row` establishes the invariant the spec states, as long as
the lists are not re-encoded through the delimited cell blobs). -/
theorem semanticFixRow_coverage (options answers : List (List Char)) :
    ∀ a ∈ (semanticFixRow options answers).2.1,
      norm a ∈ ((semanticFixRow options answers).1).map norm := by
  intro a ha
  have hinit : FixInv (fixInit options) :=
    ⟨rfl, fun x hx => absurd hx (List.not_mem_nil x)⟩
  have hfin := foldl_fixStep_inv answers _ hinit
  exact hfin.2 a ha

/-- When every answer is already matched, a reconciler step only copies the
answer through. -/
theorem foldl_fixStep_matched :
    ∀ (answers : List (List Char)) (acc : FixAcc),
      (∀ a ∈ answers, acc.seen.contains (norm a) = true) →
      answers.foldl fixStep acc = { acc with newAnswers := acc.newAnswers ++ answers } := by
  intro answers
  induction answers with
  | nil => intro acc _; simp
  | cons a rest ih =>
    intro acc h
    rw [List.foldl_cons]
    have hstep : fixStep acc a = { acc with newAnswers := acc.newAnswers ++ [a] } := by
      simp only [fixStep]
      rw [if_pos (h a (List.mem_cons_self a rest))]
    rw [hstep, ih { acc with newAnswers := acc.newAnswers ++ [a] } (fun x hx => h x (List.mem_cons_of_mem a hx))]
    simp

/-- A fully matched answer list leaves the reconciler inert: options and
answers unchanged, no flag, no additions. -/
theorem semanticFixRow_matched (options answers : List (List Char))
    (h : ∀ a ∈ answers, norm a ∈ options.map norm) :
    semanticFixRow options answers = (options, answers, false, 0) := by
  unfold semanticFixRow
  rw [foldl_fixStep_matched answers _ (fun a ha =>
    (listContains_iff (options.map norm) (norm a)).mpr (h a ha))]
  rfl

/-- A fully matched answer list leaves the regrouper inert as well. -/
theorem regroup_matched (text : List Char) (answers : List (List Char))
    (h : ∀ a ∈ answers, norm a ∈ (cleanLines text).map norm) :
    regroup text answers = cleanLines text := by
  unfold regroup
  by_cases hraw : cleanLines text = []
  · rw [if_pos hraw, hraw]
  · rw [if_neg hraw]
    cases hae : answers.isEmpty with
    | true =>
      have he : answers = [] := by
        cases answers with
        | nil => rfl
        | cons x xs => cases hae
      subst he
      rw [if_neg (by simp)]
      by_cases hm : mostlySentences (cleanLines text) = true
      · rw [if_pos hm]
      · rw [if_neg hm]
        have hpass : onePass [] (cleanLines text) = (cleanLines text, false) := rfl
        cases hf : (cleanLines text).length with
        | zero => exact absurd (List.eq_nil_of_length_eq_zero hf) hraw
        | succ n =>
          show (regroupLoop [] (n + 1) (cleanLines text)).1 = cleanLines text
          rw [regroupLoop, hpass]
          rw [if_neg hraw]
          simp
    | false =>
      have hcond : (!false &&
          answers.all fun a => ((cleanLines text).map norm).contains (norm a)) = true := by
        simp only [Bool.not_false, Bool.true_and, List.all_eq_true]
        exact fun a ha => (listContains_iff _ _).mpr (h a ha)
      rw [if_pos hcond]

/-! ### C2 (amended) — idempotence holds exactly on clean matched rows -/

/-- C2 (amended): a pipeline run is a no-op on any row already in the clean
matched state — the explode stage returns exactly the row's cleaned option
lines, those lines rejoin to the stored blob, and every parsed answer's
normalized form is among the normalized option lines.  (A second run after a
first one need not be a no-op, because the first run can store blobs that
re-parse differently: see `C2_counterexample`.) -/
theorem C2_amended (r : Row)
    (h1 : optsPipeline r = cleanLines r.opciones)
    (h2 : joinNL (cleanLines r.opciones) = r.opciones)
    (h3 : ∀ a ∈ splitAnswers r.respuesta, norm a ∈ (cleanLines r.opciones).map norm) :
    processRow r = r := by
  simp only [processRow]
  rw [h1, h2]
  rw [regroup_matched r.opciones (splitAnswers r.respuesta) h3]
  rw [semanticFixRow_matched (cleanLines r.opciones) (splitAnswers r.respuesta) h3]
  simp [h2]

/-- Concrete clean matched row for the C2 witness. -/
def rowC2W : Row := ⟨S "", S "Apple pie is great.\nBanana", S "Banana"⟩

/-- C2 witness: the amended no-op statement applied at a concrete clean
row. -/
theorem C2_witness :
    optsPipeline rowC2W = cleanLines rowC2W.opciones ∧
    joinNL (cleanLines rowC2W.opciones) = rowC2W.opciones ∧
    (∀ a ∈ splitAnswers rowC2W.respuesta,
      norm a ∈ (cleanLines rowC2W.opciones).map norm) ∧
    processRow rowC2W = rowC2W :=
  ⟨by decide, by decide, by decide,
    C2_amended rowC2W (by decide) (by decide) (by decide)⟩


/-! ### C8 — totality: the pipeline never raises -/

/-- Model of Python `max(candidates, key=len)` as a fallible operation: on an
empty sequence Python raises `ValueError`; this is the only helper call in
the reconciler that can raise, and the code guards it with `if candidates`. -/
def maxByLenE : List (List Char) → Except String (List Char)
  | [] => Except.error "max() arg is an empty sequence"
  | c :: cs => Except.ok (maxByLen (c :: cs))

/-- Exception-explicit variant of `fixStep`: the `max` call is routed through
`maxByLenE` so that a raised exception would surface as `Except.error`. -/
def fixStepE (acc : FixAcc) (a : List Char) : Except String FixAcc :=
  let an := norm a
  if acc.seen.contains an then
    Except.ok { acc with newAnswers := acc.newAnswers ++ [a] }
  else
    let candidates := acc.options.filter
      (fun o => hasSubstr an (norm o) || hasSubstr (norm o) an)
    if candidates ≠ [] then
      match maxByLenE candidates with
      | Except.ok best =>
        Except.ok { acc with newAnswers := acc.newAnswers ++ [best], changedAnswer := true }
      | Except.error e => Except.error e
    else if acc.options.contains a then
      Except.ok { acc with newAnswers := acc.newAnswers ++ [a] }
    else
      Except.ok { options := acc.options ++ [a], seen := acc.seen ++ [an], newAnswers := acc.newAnswers ++ [a], changedAnswer := acc.changedAnswer, addedOptions := acc.addedOptions + 1 }

/-- Exception-explicit variant of `_semantic_fix_row`. -/
def semanticFixRowE (options answers : List (List Char)) :
    Except String (List (List Char) × List (List Char) × Bool × Nat) :=
  match answers.foldlM fixStepE (fixInit options) with
  | Except.ok fin =>
    Except.ok (fin.options, fin.newAnswers, fin.changedAnswer, fin.addedOptions)
  | Except.error e => Except.error e

/-- Exception-explicit variant of the per-row body of `_process_dataframe`:
the `int(numero)` call is already modelled as `pyParseInt` inside
`optsPipeline` because the code catches that exception itself; the remaining
fallible call is the reconciler's `max`. -/
def processRowE (r : Row) : Except String Row :=
  match semanticFixRowE (regroup (joinNL (optsPipeline r)) (splitAnswers r.respuesta))
      (splitAnswers r.respuesta) with
  | Except.ok fixed =>
    Except.ok { numero := r.numero, opciones := joinNL fixed.1, respuesta := if fixed.2.2.1 then List.intercalate (S "; ") fixed.2.1 else r.respuesta }
  | Except.error e => Except.error e

/-- Exception-explicit variant of `_process_dataframe` on a table. -/
def processE (rows : List Row) : Except String (List Row) :=
  rows.mapM processRowE

/-- One reconciler step never raises. -/
theorem fixStepE_ok (acc : FixAcc) (a : List Char) :
    fixStepE acc a = Except.ok (fixStep acc a) := by
  simp only [fixStepE, fixStep]
  by_cases hc : acc.seen.contains (norm a) = true
  · rw [if_pos hc, if_pos hc]
  · rw [if_neg hc, if_neg hc]
    by_cases hcand : acc.options.filter
        (fun o => hasSubstr (norm a) (norm o) || hasSubstr (norm o) (norm a)) = []
    · have hne : ¬(acc.options.filter
          (fun o => hasSubstr (norm a) (norm o) || hasSubstr (norm o) (norm a)) ≠ []) :=
        fun hx => hx hcand
      rw [if_neg hne, if_neg hne]
      by_cases ho : acc.options.contains a = true
      · rw [if_pos ho, if_pos ho]
      · rw [if_neg ho, if_neg ho]
    · rw [if_pos hcand, if_pos hcand]
      cases hm : acc.options.filter
          (fun o => hasSubstr (norm a) (norm o) || hasSubstr (norm o) (norm a)) with
      | nil => exact absurd hm hcand
      | cons c cs => rfl

/-- The whole answer loop never raises. -/
theorem foldlM_fixStepE_ok :
    ∀ (answers : List (List Char)) (acc : FixAcc),
      answers.foldlM fixStepE acc = Except.ok (answers.foldl fixStep acc) := by
  intro answers
  induction answers with
  | nil => intro acc; rfl
  | cons a rest ih =>
    intro acc
    rw [List.foldlM_cons, fixStepE_ok]
    show rest.foldlM fixStepE (fixStep acc a) = _
    rw [ih, List.foldl_cons]

/-- The reconciler never raises. -/
theorem semanticFixRowE_ok (options answers : List (List Char)) :
    semanticFixRowE options answers = Except.ok (semanticFixRow options answers) := by
  unfold semanticFixRowE semanticFixRow
  rw [foldlM_fixStepE_ok]

/-- C8: the pipeline is total — processing any row, and any table, returns
normally (`Except.ok`) with the value of the pure model; the only library
calls that could raise, `int(numero)` and `max(candidates, key=len)`, are
respectively caught by the code and guarded by the nonemptiness test; and
the empty options and answers cells produce empty lists rather than errors
(a row with a non-numeric identifier and empty cells passes through
unchanged). -/
theorem C8_never_raises :
    (∀ r : Row, processRowE r = Except.ok (processRow r)) ∧
    (∀ rows : List Row, processE rows = Except.ok (process rows)) ∧
    splitAnswers (S "") = [] ∧
    splitSentencesIfNeeded (S "") = [] ∧
    processRow (Row.mk (S "x9") (S "") (S "")) = Row.mk (S "x9") (S "") (S "") := by
  have hrow : ∀ r : Row, processRowE r = Except.ok (processRow r) := by
    intro r
    unfold processRowE processRow
    rw [semanticFixRowE_ok]
  refine ⟨hrow, ?_, by decide, by decide, by decide⟩
  intro rows
  unfold processE process
  induction rows with
  | nil => rfl
  | cons r rest ih =>
    rw [List.mapM_cons, hrow r]
    show rest.mapM processRowE >>= (fun bs => pure (processRow r :: bs)) = _
    rw [ih]
    rfl


/-! ### C9 — facts about the sentence-boundary scanner -/

/-- Characters held by a scanner state. -/
def stContent : MS → List Char
  | .mnorm a => a
  | .mrun a r => a ++ r

/-- Scanner runs compose over list append. -/
theorem mrunAll_append (l1 l2 : List Char) :
    ∀ (s : MS), mrunAll s (l1 ++ l2) =
      ((mrunAll s l1).1 ++ (mrunAll (mrunAll s l1).2 l2).1,
        (mrunAll (mrunAll s l1).2 l2).2) := by
  induction l1 with
  | nil => intro s; simp [mrunAll]
  | cons c rs ih =>
    intro s
    rw [List.cons_append]
    show mrunAll s (c :: (rs ++ l2)) = _
    simp only [mrunAll]
    rw [ih (mstep s c).1]
    cases (mstep s c).2 with
    | none => rfl
    | some p => simp

/-- A step that emits nothing appends the consumed character to the state
content. -/
theorem mstep_none_content (s : MS) (c : Char) (h : (mstep s c).2 = none) :
    stContent (mstep s c).1 = stContent s ++ [c] := by
  cases s with
  | mnorm acc =>
    simp only [mstep]
    by_cases hb : (isPyWs c && lastIsTerm acc) = true
    · rw [if_pos hb]; rfl
    · rw [if_neg hb]; rfl
  | mrun a r =>
    simp only [mstep] at h ⊢
    by_cases hw : isPyWs c = true
    · rw [if_pos hw]; simp [stContent]
    · rw [if_neg hw] at h ⊢
      by_cases hs : isStartCh c = true
      · rw [if_pos hs] at h; cases h
      · rw [if_neg hs]; simp [stContent]

/-- Characters of a step's state and emitted part come from the previous
state or the consumed character. -/
theorem mstep_content_sub (s : MS) (c : Char) (x : Char) :
    (x ∈ stContent (mstep s c).1 → x ∈ stContent s ∨ x = c) ∧
    (∀ p, (mstep s c).2 = some p → x ∈ p → x ∈ stContent s) := by
  cases s with
  | mnorm acc =>
    by_cases hb : (isPyWs c && lastIsTerm acc) = true
    · have he : mstep (MS.mnorm acc) c = (MS.mrun acc [c], none) := by
        simp [mstep, hb]
      rw [he]
      constructor
      · intro hx
        simp only [stContent, List.mem_append, List.mem_singleton] at hx
        exact hx
      · intro p hp; simp at hp
    · have he : mstep (MS.mnorm acc) c = (MS.mnorm (acc ++ [c]), none) := by
        simp [mstep, hb]
      rw [he]
      constructor
      · intro hx
        simp only [stContent, List.mem_append, List.mem_singleton] at hx
        exact hx
      · intro p hp; simp at hp
  | mrun a r =>
    by_cases hw : isPyWs c = true
    · have he : mstep (MS.mrun a r) c = (MS.mrun a (r ++ [c]), none) := by
        simp [mstep, hw]
      rw [he]
      constructor
      · intro hx
        simp only [stContent, List.append_assoc, List.mem_append,
          List.mem_singleton] at hx ⊢
        tauto
      · intro p hp; simp at hp
    · by_cases hs : isStartCh c = true
      · have he : mstep (MS.mrun a r) c = (MS.mnorm [c], some a) := by
          simp [mstep, hw, hs]
        rw [he]
        constructor
        · intro hx
          simp only [stContent, List.mem_singleton] at hx
          exact Or.inr hx
        · intro p hp hxp
          have hpa : a = p := by simpa using hp
          rw [← hpa] at hxp
          simp only [stContent, List.mem_append]
          exact Or.inl hxp
      · have he : mstep (MS.mrun a r) c = (MS.mnorm (a ++ r ++ [c]), none) := by
          simp [mstep, hw, hs]
        rw [he]
        constructor
        · intro hx
          simp only [stContent, List.append_assoc, List.mem_append,
            List.mem_singleton] at hx ⊢
          tauto
        · intro p hp; simp at hp

/-- Every character of every part, and of the final state, comes from the
initial state or the input. -/
theorem mrunAll_chars :
    ∀ (l : List Char) (s : MS) (x : Char),
      (∀ p ∈ (mrunAll s l).1, x ∈ p → x ∈ stContent s ∨ x ∈ l) ∧
      (x ∈ stContent (mrunAll s l).2 → x ∈ stContent s ∨ x ∈ l) := by
  intro l
  induction l with
  | nil =>
    intro s x
    refine ⟨?_, fun hx => Or.inl hx⟩
    intro p hp
    cases hp
  | cons c rs ih =>
    intro s x
    have hstep := mstep_content_sub s c x
    have hrec := ih (mstep s c).1 x
    have hliftC : x ∈ stContent (mstep s c).1 → x ∈ stContent s ∨ x ∈ c :: rs := by
      intro hx
      rcases hstep.1 hx with hx | hx
      · exact Or.inl hx
      · exact Or.inr (by rw [hx]; exact List.mem_cons_self c rs)
    have hliftB : x ∈ stContent (mstep s c).1 ∨ x ∈ rs →
        x ∈ stContent s ∨ x ∈ c :: rs := fun h =>
      h.elim hliftC (fun hx => Or.inr (List.mem_cons_of_mem c hx))
    constructor
    · cases hemit : (mstep s c).2 with
      | none =>
        have hparts : (mrunAll s (c :: rs)).1 = (mrunAll (mstep s c).1 rs).1 := by
          simp [mrunAll, hemit]
        rw [hparts]
        intro p hp hxp
        exact hliftB (hrec.1 p hp hxp)
      | some q =>
        have hparts : (mrunAll s (c :: rs)).1
            = q :: (mrunAll (mstep s c).1 rs).1 := by
          simp [mrunAll, hemit]
        rw [hparts]
        intro p hp hxp
        rcases List.mem_cons.mp hp with hpq | hp2
        · rw [hpq] at hxp
          exact Or.inl (hstep.2 q hemit hxp)
        · exact hliftB (hrec.1 p hp2 hxp)
    · have hst : (mrunAll s (c :: rs)).2 = (mrunAll (mstep s c).1 rs).2 := rfl
      rw [hst]
      intro hx
      exact hliftB (hrec.2 hx)


/-- Branch equations of the scanner step. -/
theorem mstep_norm_run {a : List Char} {c : Char}
    (h : (isPyWs c && lastIsTerm a) = true) :
    mstep (MS.mnorm a) c = (MS.mrun a [c], none) := by simp [mstep, h]

/-- The normal state appends the character when no run starts. -/
theorem mstep_norm_app {a : List Char} {c : Char}
    (h : ¬((isPyWs c && lastIsTerm a) = true)) :
    mstep (MS.mnorm a) c = (MS.mnorm (a ++ [c]), none) := by simp [mstep, h]

/-- A whitespace character extends a pending run. -/
theorem mstep_run_ext {a r : List Char} {c : Char} (h : isPyWs c = true) :
    mstep (MS.mrun a r) c = (MS.mrun a (r ++ [c]), none) := by simp [mstep, h]

/-- A sentence-start character after a pending run emits the part. -/
theorem mstep_run_emit {a r : List Char} {c : Char}
    (hw : isPyWs c = false) (hs : isStartCh c = true) :
    mstep (MS.mrun a r) c = (MS.mnorm [c], some a) := by simp [mstep, hw, hs]

/-- Any other character dissolves the pending run back into the part. -/
theorem mstep_run_abs {a r : List Char} {c : Char}
    (hw : isPyWs c = false) (hs : isStartCh c = false) :
    mstep (MS.mrun a r) c = (MS.mnorm (a ++ r ++ [c]), none) := by
  simp [mstep, hw, hs]

/-- Unfolding a run over a cons cell whose step emits nothing. -/
theorem mrunAll_cons_none {s : MS} {c : Char} (us : List Char) {s2 : MS}
    (he : mstep s c = (s2, none)) :
    mrunAll s (c :: us) = mrunAll s2 us := by
  simp [mrunAll, he]

/-- Unfolding a run over a cons cell whose step emits a part. -/
theorem mrunAll_cons_emit {s : MS} {c : Char} (us : List Char) {s2 : MS}
    {p : List Char} (he : mstep s c = (s2, some p)) :
    mrunAll s (c :: us) = (p :: (mrunAll s2 us).1, (mrunAll s2 us).2) := by
  simp [mrunAll, he]

/-- The lookbehind after appending one character sees that character. -/
theorem lastIsTerm_append_one (x : List Char) (c : Char) :
    lastIsTerm (x ++ [c]) = isTermCh c := by
  simp [lastIsTerm, List.getLast?_concat]

/-- Relation between scanner states that take the same branches: normal
states agreeing on the lookbehind, run states carrying the same run. -/
def msRel : MS → MS → Prop
  | .mnorm a, .mnorm a2 => lastIsTerm a = lastIsTerm a2
  | .mrun _ r, .mrun _ r2 => r = r2
  | _, _ => False

/-- Simulation: two related states scan the same input through the same
branches, so if one run emits nothing and ends in a normal state, the other
does too, consuming the same characters onto its own content. -/
theorem mrunAll_transfer :
    ∀ (u : List Char) (s s2 : MS), msRel s s2 →
      (mrunAll s u).1 = [] →
      ∀ m, (mrunAll s u).2 = MS.mnorm m →
      ∃ w, m = stContent s ++ w ∧
        mrunAll s2 u = ([], MS.mnorm (stContent s2 ++ w)) := by
  intro u
  induction u with
  | nil =>
    intro s s2 hrel hparts m hm
    cases s with
    | mnorm a =>
      cases s2 with
      | mnorm a2 =>
        have hm2 : MS.mnorm a = MS.mnorm m := hm
        have ham : a = m := by injection hm2
        refine ⟨[], ?_, ?_⟩
        · rw [← ham]; simp [stContent]
        · show ([], MS.mnorm a2) = ([], MS.mnorm (stContent (MS.mnorm a2) ++ []))
          simp [stContent]
      | mrun a2 r2 => simp [msRel] at hrel
    | mrun a r =>
      have hm2 : MS.mrun a r = MS.mnorm m := hm
      simp at hm2
  | cons c us ih =>
    intro s s2 hrel hparts m hm
    cases s with
    | mnorm a =>
      cases s2 with
      | mrun a2 r2 => simp [msRel] at hrel
      | mnorm a2 =>
        have hterm : lastIsTerm a = lastIsTerm a2 := hrel
        by_cases hb : (isPyWs c && lastIsTerm a) = true
        · have hb2 : (isPyWs c && lastIsTerm a2) = true := by rw [← hterm]; exact hb
          rw [mrunAll_cons_none us (mstep_norm_run hb)] at hparts hm
          obtain ⟨w, hw1, hw2⟩ := ih (MS.mrun a [c]) (MS.mrun a2 [c]) rfl hparts m hm
          refine ⟨c :: w, ?_, ?_⟩
          · rw [hw1]; simp [stContent]
          · rw [mrunAll_cons_none us (mstep_norm_run hb2), hw2]
            simp [stContent]
        · have hb2 : ¬((isPyWs c && lastIsTerm a2) = true) := by rw [← hterm]; exact hb
          rw [mrunAll_cons_none us (mstep_norm_app hb)] at hparts hm
          have hrel2 : msRel (MS.mnorm (a ++ [c])) (MS.mnorm (a2 ++ [c])) := by
            show lastIsTerm (a ++ [c]) = lastIsTerm (a2 ++ [c])
            rw [lastIsTerm_append_one, lastIsTerm_append_one]
          obtain ⟨w, hw1, hw2⟩ := ih _ _ hrel2 hparts m hm
          refine ⟨c :: w, ?_, ?_⟩
          · rw [hw1]; simp [stContent]
          · rw [mrunAll_cons_none us (mstep_norm_app hb2), hw2]
            simp [stContent]
    | mrun a r =>
      cases s2 with
      | mnorm a2 => simp [msRel] at hrel
      | mrun a2 r2 =>
        have hr : r = r2 := hrel
        subst hr
        by_cases hwc : isPyWs c = true
        · rw [mrunAll_cons_none us (mstep_run_ext hwc)] at hparts hm
          obtain ⟨w, hw1, hw2⟩ := ih (MS.mrun a (r ++ [c])) (MS.mrun a2 (r ++ [c])) rfl hparts m hm
          refine ⟨c :: w, ?_, ?_⟩
          · rw [hw1]; simp [stContent]
          · rw [mrunAll_cons_none us (mstep_run_ext hwc), hw2]
            simp [stContent]
        · have hwc2 : isPyWs c = false := by
            cases hx : isPyWs c with
            | true => exact absurd hx hwc
            | false => rfl
          by_cases hsc : isStartCh c = true
          · rw [mrunAll_cons_emit us (mstep_run_emit hwc2 hsc)] at hparts
            cases hparts
          · have hsc2 : isStartCh c = false := by
              cases hx : isStartCh c with
              | true => exact absurd hx hsc
              | false => rfl
            rw [mrunAll_cons_none us (mstep_run_abs hwc2 hsc2)] at hparts hm
            have hrel2 : msRel (MS.mnorm (a ++ r ++ [c])) (MS.mnorm (a2 ++ r ++ [c])) := by
              show lastIsTerm (a ++ r ++ [c]) = lastIsTerm (a2 ++ r ++ [c])
              rw [show a ++ r ++ [c] = (a ++ r) ++ [c] from rfl,
                show a2 ++ r ++ [c] = (a2 ++ r) ++ [c] from rfl,
                lastIsTerm_append_one, lastIsTerm_append_one]
            obtain ⟨w, hw1, hw2⟩ := ih _ _ hrel2 hparts m hm
            refine ⟨c :: w, ?_, ?_⟩
            · rw [hw1]; simp [stContent]
            · rw [mrunAll_cons_none us (mstep_run_abs hwc2 hsc2), hw2]
              simp [stContent]


/-- Sentence-terminal characters are not whitespace. -/
theorem isTermCh_not_ws {c : Char} (h : isTermCh c = true) : isPyWs c = false := by
  have hd : c = '.' ∨ c = '!' ∨ c = '?' := by
    simpa [isTermCh, or_assoc] using h
  rcases hd with rfl | rfl | rfl <;> decide

/-- Whitespace never ends a sentence. -/
theorem ws_not_term {c : Char} (h : isPyWs c = true) : isTermCh c = false := by
  cases hx : isTermCh c with
  | false => rfl
  | true => rw [isTermCh_not_ws hx] at h; cases h

/-- An all-whitespace list never satisfies the lookbehind. -/
theorem lastIsTerm_all_ws {w : List Char} (h : ∀ x ∈ w, isPyWs x = true) :
    lastIsTerm w = false := by
  unfold lastIsTerm
  cases hl : w.getLast? with
  | none => rfl
  | some d =>
    have hd : d ∈ w := List.mem_of_mem_getLast? (by rw [hl]; rfl)
    exact ws_not_term (h d hd)

/-- Scanning whitespace from a normal state whose lookbehind fails just
accumulates it. -/
theorem scan_ws_norm :
    ∀ (w acc : List Char), (∀ x ∈ w, isPyWs x = true) → lastIsTerm acc = false →
      mrunAll (MS.mnorm acc) w = ([], MS.mnorm (acc ++ w)) := by
  intro w
  induction w with
  | nil => intro acc _ _; simp [mrunAll]
  | cons x w2 ih =>
    intro acc hws hlt
    have hb : ¬((isPyWs x && lastIsTerm acc) = true) := by simp [hlt]
    rw [mrunAll_cons_none w2 (mstep_norm_app hb)]
    have hlt2 : lastIsTerm (acc ++ [x]) = false := by
      rw [lastIsTerm_append_one]
      exact ws_not_term (hws x (List.mem_cons_self x w2))
    rw [ih (acc ++ [x]) (fun y hy => hws y (List.mem_cons_of_mem x hy)) hlt2]
    simp

/-- Scanning whitespace from a run state extends the run. -/
theorem scan_ws_run :
    ∀ (w a r : List Char), (∀ x ∈ w, isPyWs x = true) →
      mrunAll (MS.mrun a r) w = ([], MS.mrun a (r ++ w)) := by
  intro w
  induction w with
  | nil => intro a r _; simp [mrunAll]
  | cons x w2 ih =>
    intro a r hws
    rw [mrunAll_cons_none w2 (mstep_run_ext (hws x (List.mem_cons_self x w2)))]
    rw [ih a (r ++ [x]) (fun y hy => hws y (List.mem_cons_of_mem x hy))]
    simp

/-- A list is inert when scanning it from scratch emits nothing and leaves
its characters in the normal accumulator: such a list is exactly one that
`_SENT_SPLIT` does not split. -/
def Inert (p : List Char) : Prop :=
  mrunAll (MS.mnorm []) p = ([], MS.mnorm p)

/-- Every emitted part is inert and ends in terminal punctuation. -/
def PGood (p : List Char) : Prop := Inert p ∧ lastIsTerm p = true

/-- Invariant of reachable scanner states: the accumulated part is inert,
and a pending run is a nonempty whitespace run behind terminal
punctuation. -/
def StateOK : MS → Prop
  | .mnorm a => Inert a
  | .mrun a r =>
    Inert a ∧ lastIsTerm a = true ∧ r ≠ [] ∧ ∀ x ∈ r, isPyWs x = true

/-- Growing an inert list by a no-emission scan keeps it inert. -/
theorem inert_extend {a : List Char} (ha : Inert a) {u : List Char}
    (hu : mrunAll (MS.mnorm a) u = ([], MS.mnorm (a ++ u))) : Inert (a ++ u) := by
  unfold Inert
  rw [mrunAll_append a u (MS.mnorm []), ha]
  simp [hu]

/-- One scanner step preserves the state invariant and emits only good
parts. -/
theorem stateOK_step (s : MS) (c : Char) (h : StateOK s) :
    StateOK (mstep s c).1 ∧ (∀ p, (mstep s c).2 = some p → PGood p) := by
  cases s with
  | mnorm a =>
    by_cases hb : (isPyWs c && lastIsTerm a) = true
    · rw [mstep_norm_run hb]
      have hand := (Bool.and_eq_true _ _).mp hb
      refine ⟨⟨h, hand.2, by simp, ?_⟩, fun p hp => by simp at hp⟩
      intro x hx
      rw [List.mem_singleton.mp hx]
      exact hand.1
    · rw [mstep_norm_app hb]
      refine ⟨?_, fun p hp => by simp at hp⟩
      show Inert (a ++ [c])
      exact inert_extend h (by rw [mrunAll_cons_none [] (mstep_norm_app hb)]; rfl)
  | mrun a r =>
    obtain ⟨hia, hta, hrne, hrws⟩ := h
    by_cases hwc : isPyWs c = true
    · rw [mstep_run_ext hwc]
      refine ⟨⟨hia, hta, by simp, ?_⟩, fun p hp => by simp at hp⟩
      intro x hx
      rcases List.mem_append.mp hx with hx | hx
      · exact hrws x hx
      · rw [List.mem_singleton.mp hx]; exact hwc
    · have hwc2 : isPyWs c = false := by
        cases hx : isPyWs c with
        | true => exact absurd hx hwc
        | false => rfl
      by_cases hsc : isStartCh c = true
      · rw [mstep_run_emit hwc2 hsc]
        constructor
        · show Inert [c]
          unfold Inert
          have hb : ¬((isPyWs c && lastIsTerm ([] : List Char)) = true) := by
            simp [lastIsTerm]
          rw [mrunAll_cons_none [] (mstep_norm_app hb)]
          rfl
        · intro p hp
          have hpa : a = p := by simpa using hp
          rw [← hpa]
          exact ⟨hia, hta⟩
      · have hsc2 : isStartCh c = false := by
          cases hx : isStartCh c with
          | true => exact absurd hx hsc
          | false => rfl
        rw [mstep_run_abs hwc2 hsc2]
        refine ⟨?_, fun p hp => by simp at hp⟩
        show Inert (a ++ r ++ [c])
        rw [List.append_assoc]
        refine inert_extend hia ?_
        cases r with
        | nil => exact absurd rfl hrne
        | cons x r2 =>
          have hb : (isPyWs x && lastIsTerm a) = true := by
            rw [hrws x (List.mem_cons_self x r2), hta]; rfl
          rw [show (x :: r2) ++ [c] = x :: (r2 ++ [c]) from rfl]
          rw [mrunAll_cons_none (r2 ++ [c]) (mstep_norm_run hb)]
          rw [mrunAll_append r2 [c] (MS.mrun a [x])]
          rw [scan_ws_run r2 a [x] (fun y hy => hrws y (List.mem_cons_of_mem x hy))]
          rw [show mrunAll (MS.mrun a ([x] ++ r2)) [c]
              = ([], MS.mnorm (a ++ ([x] ++ r2) ++ [c])) from by
            rw [mrunAll_cons_none [] (mstep_run_abs hwc2 hsc2)]; rfl]
          simp

/-- The state invariant survives a whole scan, and every part emitted on the
way is good. -/
theorem mrunAll_stateOK :
    ∀ (l : List Char) (s : MS), StateOK s →
      StateOK (mrunAll s l).2 ∧ ∀ p ∈ (mrunAll s l).1, PGood p := by
  intro l
  induction l with
  | nil =>
    intro s h
    exact ⟨h, fun p hp => by cases hp⟩
  | cons c rs ih =>
    intro s h
    have hstep := stateOK_step s c h
    cases hemit : (mstep s c).2 with
    | none =>
      have he : mstep s c = ((mstep s c).1, none) := by rw [← hemit]
      rw [mrunAll_cons_none rs he]
      exact ih (mstep s c).1 hstep.1
    | some q =>
      have he : mstep s c = ((mstep s c).1, some q) := by rw [← hemit]
      rw [mrunAll_cons_emit rs he]
      have hrec := ih (mstep s c).1 hstep.1
      refine ⟨hrec.1, ?_⟩
      intro p hp
      rcases List.mem_cons.mp hp with hpq | hp2
      · rw [hpq]; exact hstep.2 q hemit
      · exact hrec.2 p hp2


/-- The final part equals the state content. -/
theorem mfinish_eq_stContent : ∀ s : MS, mfinish s = stContent s := by
  intro s; cases s <;> rfl

/-- With no emission the state content accumulates the whole input. -/
theorem mrunAll_no_emit_content :
    ∀ (l : List Char) (s : MS), (mrunAll s l).1 = [] →
      stContent (mrunAll s l).2 = stContent s ++ l := by
  intro l
  induction l with
  | nil => intro s _; simp [mrunAll]
  | cons c rs ih =>
    intro s h
    cases hemit : (mstep s c).2 with
    | some q =>
      have he : mstep s c = ((mstep s c).1, some q) := by rw [← hemit]
      rw [mrunAll_cons_emit rs he] at h
      cases h
    | none =>
      have he : mstep s c = ((mstep s c).1, none) := by rw [← hemit]
      rw [mrunAll_cons_none rs he] at h ⊢
      rw [ih (mstep s c).1 h, mstep_none_content s c hemit]
      simp

/-- Removing trailing whitespace from an all-whitespace list gives nothing. -/
theorem dropTrailWs_all_ws :
    ∀ {r : List Char}, (∀ x ∈ r, isPyWs x = true) → dropTrailWs r = [] := by
  intro r
  induction r with
  | nil => intro _; rfl
  | cons c rs ih =>
    intro h
    rw [dropTrailWs_cons_eq, ih (fun y hy => h y (List.mem_cons_of_mem c hy))]
    simp [h c (List.mem_cons_self c rs)]

/-- Appending trailing whitespace does not change `dropTrailWs`. -/
theorem dropTrailWs_append_ws {r : List Char} (hr : ∀ x ∈ r, isPyWs x = true) :
    ∀ (x : List Char), dropTrailWs (x ++ r) = dropTrailWs x := by
  intro x
  induction x with
  | nil =>
    rw [List.nil_append, dropTrailWs_all_ws hr]
    rfl
  | cons c x2 ih =>
    rw [List.cons_append, dropTrailWs_cons_eq, ih, dropTrailWs_cons_eq]

/-- Every list splits into its trailing-whitespace-free part and a
whitespace tail. -/
theorem dropTrailWs_decomp :
    ∀ (l : List Char), ∃ r, l = dropTrailWs l ++ r ∧ ∀ x ∈ r, isPyWs x = true := by
  intro l
  induction l with
  | nil => exact ⟨[], rfl, fun x hx => by cases hx⟩
  | cons c rs ih =>
    obtain ⟨r, hr, hrws⟩ := ih
    by_cases hb : ((dropTrailWs rs).isEmpty && isPyWs c) = true
    · refine ⟨c :: rs, ?_, ?_⟩
      · rw [dropTrailWs_cons_eq, if_pos hb]; rfl
      · intro x hx
        have hand := (Bool.and_eq_true _ _).mp hb
        have hnil : dropTrailWs rs = [] := by
          cases hd : dropTrailWs rs with
          | nil => rfl
          | cons y ys => rw [hd] at hand; cases hand.1
        rcases List.mem_cons.mp hx with rfl | hx
        · exact hand.2
        · rw [hnil] at hr
          exact hrws x (by rw [hr] at hx; simpa using hx)
    · refine ⟨r, ?_, hrws⟩
      rw [dropTrailWs_cons_eq, if_neg hb, List.cons_append, ← hr]

/-- The trailing-whitespace-free part ends in a non-whitespace character
when nonempty. -/
theorem dropTrailWs_last_not_ws :
    ∀ (l : List Char), dropTrailWs l = [] ∨
      ∃ d, (dropTrailWs l).getLast? = some d ∧ isPyWs d = false := by
  intro l
  induction l with
  | nil => exact Or.inl rfl
  | cons c rs ih =>
    by_cases hb : ((dropTrailWs rs).isEmpty && isPyWs c) = true
    · left; rw [dropTrailWs_cons_eq, if_pos hb]
    · right
      rw [dropTrailWs_cons_eq, if_neg hb]
      cases hd : dropTrailWs rs with
      | nil =>
        have hcw : isPyWs c = false := by
          cases hx : isPyWs c with
          | false => rfl
          | true => exact absurd (by rw [hd, hx]; rfl) hb
        exact ⟨c, by simp, hcw⟩
      | cons y ys =>
        rcases ih with hnil | ⟨d, hdl, hdw⟩
        · rw [hnil] at hd; cases hd
        · refine ⟨d, ?_, hdw⟩
          rw [hd] at hdl
          rw [List.getLast?_cons_cons]
          exact hdl

/-- Dropping leading whitespace preserves inertness. -/
theorem inert_dropLead {p : List Char} (h : Inert p) :
    Inert (p.dropWhile isPyWs) := by
  have hsplit := List.takeWhile_append_dropWhile isPyWs p
  have hws : ∀ x ∈ p.takeWhile isPyWs, isPyWs x = true :=
    fun x hx => List.mem_takeWhile_imp hx
  have hscan : mrunAll (MS.mnorm []) (p.takeWhile isPyWs)
      = ([], MS.mnorm (p.takeWhile isPyWs)) := by
    have := scan_ws_norm (p.takeWhile isPyWs) [] hws (by rfl)
    simpa using this
  have happ := mrunAll_append (p.takeWhile isPyWs) (p.dropWhile isPyWs) (MS.mnorm [])
  rw [hsplit, h, hscan] at happ
  have h1 : (mrunAll (MS.mnorm (p.takeWhile isPyWs)) (p.dropWhile isPyWs)).1 = [] := by
    have := congrArg Prod.fst happ
    simpa using this.symm
  have h2 : (mrunAll (MS.mnorm (p.takeWhile isPyWs)) (p.dropWhile isPyWs)).2
      = MS.mnorm p := by
    have := congrArg Prod.snd happ
    simpa using this.symm
  have hrel : msRel (MS.mnorm (p.takeWhile isPyWs)) (MS.mnorm []) := by
    show lastIsTerm (p.takeWhile isPyWs) = lastIsTerm []
    rw [lastIsTerm_all_ws hws]; rfl
  obtain ⟨w, hw1, hw2⟩ := mrunAll_transfer (p.dropWhile isPyWs)
    (MS.mnorm (p.takeWhile isPyWs)) (MS.mnorm []) hrel h1 p h2
  have hw1b : p = p.takeWhile isPyWs ++ w := by
    simpa [stContent] using hw1
  have hcan : p.takeWhile isPyWs ++ p.dropWhile isPyWs = p.takeWhile isPyWs ++ w := by
    rw [hsplit]; exact hw1b
  have hwq : w = p.dropWhile isPyWs := (List.append_cancel_left hcan).symm
  rw [hwq] at hw2
  show mrunAll (MS.mnorm []) (p.dropWhile isPyWs) = ([], MS.mnorm (p.dropWhile isPyWs))
  rw [hw2]
  simp [stContent]

/-- When the scan emits nothing and the input ends in a non-whitespace
character (or is empty), the final state is the plain accumulator. -/
theorem no_emit_final_norm {q : List Char}
    (hq : (mrunAll (MS.mnorm []) q).1 = [])
    (hlast : q = [] ∨ ∃ d, q.getLast? = some d ∧ isPyWs d = false) :
    (mrunAll (MS.mnorm []) q).2 = MS.mnorm q := by
  rcases hlast with rfl | ⟨d, hd, hdw⟩
  · rfl
  · have hok := (mrunAll_stateOK q (MS.mnorm []) (show Inert [] from rfl)).1
    have hcontent : stContent (mrunAll (MS.mnorm []) q).2 = q := by
      have := mrunAll_no_emit_content q (MS.mnorm []) hq
      simpa [stContent] using this
    cases hfin : (mrunAll (MS.mnorm []) q).2 with
    | mnorm a =>
      rw [hfin] at hcontent
      rw [show stContent (MS.mnorm a) = a from rfl] at hcontent
      rw [hcontent]
    | mrun a r =>
      rw [hfin] at hcontent hok
      obtain ⟨_, _, hrne, hrws⟩ := hok
      have hrl : r.getLast? = some (r.getLast hrne) :=
        List.getLast?_eq_getLast_of_ne_nil hrne
      have hql : q.getLast? = some (r.getLast hrne) := by
        rw [← hcontent, show stContent (MS.mrun a r) = a ++ r from rfl,
          List.getLast?_append, hrl]
        rfl
      rw [hd] at hql
      have hdr : d = r.getLast hrne := by injection hql
      have hws2 : isPyWs d = true := by
        rw [hdr]; exact hrws _ (List.getLast_mem hrne)
      rw [hdw] at hws2; cases hws2

/-- Dropping trailing whitespace preserves inertness. -/
theorem inert_dropTrail {p : List Char} (h : Inert p) :
    Inert (dropTrailWs p) := by
  obtain ⟨r, hdecomp, hrws⟩ := dropTrailWs_decomp p
  have h2 : mrunAll (MS.mnorm []) (dropTrailWs p ++ r)
      = ([], MS.mnorm (dropTrailWs p ++ r)) := by
    rw [← hdecomp]; exact h
  have happ := mrunAll_append (dropTrailWs p) r (MS.mnorm [])
  rw [h2] at happ
  have hq : (mrunAll (MS.mnorm []) (dropTrailWs p)).1 = [] := by
    have := congrArg Prod.fst happ
    simp at this
    exact this.1
  have hfin := no_emit_final_norm hq (dropTrailWs_last_not_ws p)
  show mrunAll (MS.mnorm []) (dropTrailWs p) = ([], MS.mnorm (dropTrailWs p))
  rw [show mrunAll (MS.mnorm []) (dropTrailWs p)
      = ((mrunAll (MS.mnorm []) (dropTrailWs p)).1,
         (mrunAll (MS.mnorm []) (dropTrailWs p)).2) from rfl, hq, hfin]

/-- Stripping preserves inertness. -/
theorem inert_strip {p : List Char} (h : Inert p) : Inert (stripChars p) :=
  inert_dropTrail (inert_dropLead h)

/-- Every part of a sentence split, stripped, is inert: re-splitting it
cannot split again. -/
theorem sentSplit_strip_inert (l : List Char) :
    ∀ p ∈ sentSplit l, Inert (stripChars p) := by
  intro p hp
  have hok := mrunAll_stateOK l (MS.mnorm []) (show Inert [] from rfl)
  unfold sentSplit at hp
  rcases List.mem_append.mp hp with hp | hp
  · exact inert_strip (hok.2 p hp).1
  · have hpf : p = mfinish (mrunAll (MS.mnorm []) l).2 := by simpa using hp
    rw [hpf]
    cases hfin : (mrunAll (MS.mnorm []) l).2 with
    | mnorm a =>
      have hoka := hok.1
      rw [hfin] at hoka
      exact inert_strip hoka
    | mrun a r =>
      have hoka := hok.1
      rw [hfin] at hoka
      obtain ⟨hia, hta, hrne, hrws⟩ := hoka
      have hstrip : stripChars (a ++ r) = stripChars a := by
        unfold stripChars
        obtain ⟨d, hd, htd⟩ : ∃ d, a.getLast? = some d ∧ isTermCh d = true := by
          unfold lastIsTerm at hta
          cases hl : a.getLast? with
          | none => rw [hl] at hta; cases hta
          | some d =>
            rw [hl] at hta
            exact ⟨d, rfl, hta⟩
        have hda : d ∈ a := List.mem_of_mem_getLast? (by rw [hd]; rfl)
        have hna : a.dropWhile isPyWs ≠ [] := by
          intro hnil
          have hwsd := List.dropWhile_eq_nil_iff.mp hnil d hda
          rw [isTermCh_not_ws htd] at hwsd
          cases hwsd
        rw [List.dropWhile_append, if_neg (by simpa using hna)]
        exact dropTrailWs_append_ws hrws _
      rw [show mfinish (MS.mrun a r) = a ++ r from rfl, hstrip]
      exact inert_strip hia

/-- Characters of every part come from the input line. -/
theorem sentSplit_chars (l : List Char) :
    ∀ p ∈ sentSplit l, ∀ ch ∈ p, ch ∈ l := by
  intro p hp ch hch
  have h := mrunAll_chars l (MS.mnorm []) ch
  unfold sentSplit at hp
  rcases List.mem_append.mp hp with hp | hp
  · rcases h.1 p hp hch with hx | hx
    · cases hx
    · exact hx
  · have hpf : p = mfinish (mrunAll (MS.mnorm []) l).2 := by simpa using hp
    rw [hpf, mfinish_eq_stContent] at hch
    rcases h.2 hch with hx | hx
    · cases hx
    · exact hx

/-- An inert, stripped, nonempty line explodes to itself alone. -/
theorem lineParts_eq_self {x : List Char} (hin : Inert x)
    (hs : stripChars x = x) (hne : x ≠ []) : lineParts x = [x] := by
  unfold lineParts sentSplit
  rw [hin]
  simp [mfinish, hs, hne]

/-- `_split_sentences_if_needed` on a blob with no surviving line. -/
theorem splitSIN_nil_eval {t : List Char} (h : cleanLines t = []) :
    splitSentencesIfNeeded t = [] := by
  unfold splitSentencesIfNeeded
  rw [h]
  rfl

/-- The single-line early return (lines 71-76): a lone line that explodes
into two or more parts is replaced by them. -/
theorem splitSIN_single_hi {t a : List Char} (h : cleanLines t = [a])
    (hb : (lineParts a).length ≥ 2) :
    splitSentencesIfNeeded t = lineParts a := by
  unfold splitSentencesIfNeeded
  rw [h]
  simp [hb]

/-- A lone line that does not explode falls through to the generic loop. -/
theorem splitSIN_single_lo {t a : List Char} (h : cleanLines t = [a])
    (hb : ¬((lineParts a).length ≥ 2)) :
    splitSentencesIfNeeded t =
      if (([a] : List (List Char)).foldl explodeStep ([], false)).2
      then (([a] : List (List Char)).foldl explodeStep ([], false)).1
      else [a] := by
  unfold splitSentencesIfNeeded
  rw [h]
  simp [hb]

/-- With two or more lines the early return is skipped and the generic
per-line loop decides the result. -/
theorem splitSIN_multi {t : List Char} {a b : List Char} {rest : List (List Char)}
    (h : cleanLines t = a :: b :: rest) :
    splitSentencesIfNeeded t =
      if ((a :: b :: rest).foldl explodeStep ([], false)).2
      then ((a :: b :: rest).foldl explodeStep ([], false)).1
      else a :: b :: rest := by
  unfold splitSentencesIfNeeded
  rw [h]
  simp


/-- Every part a line explodes into is stripped, nonempty, newline-free
(when the line is) and does not explode again. -/
theorem lineParts_mem_stable {l : List Char} (hnl : '\n' ∉ l) :
    ∀ p ∈ lineParts l,
      stripChars p = p ∧ p ≠ [] ∧ '\n' ∉ p ∧ (lineParts p).length < 2 := by
  intro p hp
  unfold lineParts at hp
  have hp2 := List.mem_filter.mp hp
  have hne : p ≠ [] := by simpa using hp2.2
  obtain ⟨q, hq, hqs⟩ := List.mem_map.mp hp2.1
  have hinert : Inert p := by rw [← hqs]; exact sentSplit_strip_inert l q hq
  have hself : stripChars p = p := by rw [← hqs]; exact stripChars_idem q
  have hnlp : '\n' ∉ p := fun hm =>
    hnl (sentSplit_chars l q hq '\n' (mem_stripChars (by rw [hqs]; exact hm)))
  refine ⟨hself, hne, hnlp, ?_⟩
  rw [lineParts_eq_self hinert hself hne]
  simp

/-- The changed flag of the explode loop is never cleared. -/
theorem explodeFold_flag_mono :
    ∀ (lines : List (List Char)) (acc : List (List Char)),
      (lines.foldl explodeStep (acc, true)).2 = true := by
  intro lines
  induction lines with
  | nil => intro acc; rfl
  | cons l ls ih =>
    intro acc
    rw [List.foldl_cons]
    by_cases hb : (lineParts l).length ≥ 2
    · have hstep : explodeStep (acc, true) l = (acc ++ lineParts l, true) := by
        simp only [explodeStep]; rw [if_pos hb]
      rw [hstep]; exact ih _
    · have hstep : explodeStep (acc, true) l = (acc ++ [l], true) := by
        simp only [explodeStep]; rw [if_neg hb]
      rw [hstep]; exact ih _

/-- A run of the explode loop that reports no change started unflagged and
found no line worth exploding. -/
theorem explodeFold_flag_false :
    ∀ (lines : List (List Char)) (acc : List (List Char)) (b : Bool),
      (lines.foldl explodeStep (acc, b)).2 = false →
      b = false ∧ ∀ l ∈ lines, (lineParts l).length < 2 := by
  intro lines
  induction lines with
  | nil =>
    intro acc b h
    exact ⟨h, fun l hl => absurd hl (List.not_mem_nil l)⟩
  | cons l ls ih =>
    intro acc b h
    rw [List.foldl_cons] at h
    by_cases hb : (lineParts l).length ≥ 2
    · have hstep : explodeStep (acc, b) l = (acc ++ lineParts l, true) := by
        simp only [explodeStep]; rw [if_pos hb]
      rw [hstep, explodeFold_flag_mono ls _] at h
      simp at h
    · have hstep : explodeStep (acc, b) l = (acc ++ [l], b) := by
        simp only [explodeStep]; rw [if_neg hb]
      rw [hstep] at h
      obtain ⟨hb2, hrest⟩ := ih _ _ h
      refine ⟨hb2, fun x hx => ?_⟩
      rcases List.mem_cons.mp hx with rfl | hx
      · omega
      · exact hrest x hx

/-- The explode loop keeps every line verbatim when none explodes. -/
theorem explodeFold_id :
    ∀ (lines : List (List Char)),
      (∀ l ∈ lines, (lineParts l).length < 2) →
      ∀ (acc : List (List Char)) (b : Bool),
        lines.foldl explodeStep (acc, b) = (acc ++ lines, b) := by
  intro lines
  induction lines with
  | nil => intro _ acc b; simp
  | cons l ls ih =>
    intro h acc b
    rw [List.foldl_cons]
    have hb : ¬((lineParts l).length ≥ 2) := by
      have := h l (List.mem_cons_self l ls); omega
    have hstep : explodeStep (acc, b) l = (acc ++ [l], b) := by
      simp only [explodeStep]; rw [if_neg hb]
    rw [hstep, ih (fun x hx => h x (List.mem_cons_of_mem l hx)) (acc ++ [l]) b]
    simp

/-- Every line accumulated by the explode loop is stripped, nonempty,
newline-free and does not explode again. -/
theorem explodeFold_stable :
    ∀ (lines : List (List Char)),
      (∀ l ∈ lines, stripChars l = l ∧ l ≠ [] ∧ '\n' ∉ l) →
      ∀ (acc : List (List Char)) (b : Bool),
        (∀ x ∈ acc, stripChars x = x ∧ x ≠ [] ∧ '\n' ∉ x ∧
          (lineParts x).length < 2) →
        ∀ x ∈ (lines.foldl explodeStep (acc, b)).1,
          stripChars x = x ∧ x ≠ [] ∧ '\n' ∉ x ∧ (lineParts x).length < 2 := by
  intro lines
  induction lines with
  | nil =>
    intro _ acc b hacc x hx
    exact hacc x hx
  | cons l ls ih =>
    intro h acc b hacc x hx
    rw [List.foldl_cons] at hx
    obtain ⟨hsl, hnel, hnll⟩ := h l (List.mem_cons_self l ls)
    by_cases hb : (lineParts l).length ≥ 2
    · have hstep : explodeStep (acc, b) l = (acc ++ lineParts l, true) := by
        simp only [explodeStep]; rw [if_pos hb]
      rw [hstep] at hx
      refine ih (fun y hy => h y (List.mem_cons_of_mem l hy)) _ _ ?_ x hx
      intro y hy
      rcases List.mem_append.mp hy with hy | hy
      · exact hacc y hy
      · exact lineParts_mem_stable hnll y hy
    · have hstep : explodeStep (acc, b) l = (acc ++ [l], b) := by
        simp only [explodeStep]; rw [if_neg hb]
      rw [hstep] at hx
      refine ih (fun y hy => h y (List.mem_cons_of_mem l hy)) _ _ ?_ x hx
      intro y hy
      rcases List.mem_append.mp hy with hy | hy
      · exact hacc y hy
      · have hyl : y = l := by simpa using hy
        subst hyl
        exact ⟨hsl, hnel, hnll, by omega⟩

/-- Joining stripped, nonempty, newline-free lines and re-cleaning them
recovers the lines. -/
theorem cleanLines_joinNL_of_stable (out : List (List Char)) (hne : out ≠ [])
    (h : ∀ x ∈ out, stripChars x = x ∧ x ≠ [] ∧ '\n' ∉ x) :
    cleanLines (joinNL out) = out := by
  have hnl : ∀ l ∈ out, '\n' ∉ l := fun l hl => (h l hl).2.2
  show ((splitNL (joinNL out)).map stripChars).filter (fun l => l ≠ []) = out
  rw [splitNL_joinNL out hne hnl]
  have hmap : out.map stripChars = out := by
    calc out.map stripChars = out.map id :=
          List.map_congr_left (fun l hl => (h l hl).1)
      _ = out := List.map_id _
  rw [hmap]
  exact List.filter_eq_self.mpr (fun a ha => by simpa using (h a ha).2.1)

/-- Every line the exploder outputs is stripped, nonempty, newline-free
and does not explode again. -/
theorem splitSentences_stable (t : List Char) :
    ∀ x ∈ splitSentencesIfNeeded t,
      stripChars x = x ∧ x ≠ [] ∧ '\n' ∉ x ∧ (lineParts x).length < 2 := by
  intro x hx
  cases hcl : cleanLines t with
  | nil =>
    rw [splitSIN_nil_eval hcl] at hx
    cases hx
  | cons a rest =>
    have hmem : ∀ l ∈ (a :: rest : List (List Char)),
        stripChars l = l ∧ l ≠ [] ∧ '\n' ∉ l :=
      fun l hl => cleanLines_mem (by rw [hcl]; exact hl)
    have hmema := hmem a (List.mem_cons_self a rest)
    cases rest with
    | nil =>
      by_cases hb : (lineParts a).length ≥ 2
      · rw [splitSIN_single_hi hcl hb] at hx
        exact lineParts_mem_stable hmema.2.2 x hx
      · rw [splitSIN_single_lo hcl hb] at hx
        by_cases hf : (([a] : List (List Char)).foldl explodeStep ([], false)).2 = true
        · rw [if_pos hf] at hx
          exact explodeFold_stable [a] hmem [] false
            (fun y hy => absurd hy (List.not_mem_nil y)) x hx
        · rw [if_neg hf] at hx
          have hxa : x = a := by simpa using hx
          subst hxa
          exact ⟨hmema.1, hmema.2.1, hmema.2.2, by omega⟩
    | cons b rest2 =>
      rw [splitSIN_multi hcl] at hx
      by_cases hf : ((a :: b :: rest2 : List (List Char)).foldl explodeStep
          ([], false)).2 = true
      · rw [if_pos hf] at hx
        exact explodeFold_stable _ hmem [] false
          (fun y hy => absurd hy (List.not_mem_nil y)) x hx
      · rw [if_neg hf] at hx
        have hflag : ((a :: b :: rest2 : List (List Char)).foldl explodeStep
            ([], false)).2 = false := by
          cases hv : ((a :: b :: rest2 : List (List Char)).foldl explodeStep
              ([], false)).2
          · rfl
          · exact absurd hv hf
        obtain ⟨-, hparts⟩ := explodeFold_flag_false _ _ _ hflag
        obtain ⟨h1, h2, h3⟩ := hmem x hx
        exact ⟨h1, h2, h3, hparts x hx⟩

/-- The exploder is idempotent on its own newline-joined output. -/
theorem splitSIN_idem (t : List Char) :
    splitSentencesIfNeeded (joinNL (splitSentencesIfNeeded t))
      = splitSentencesIfNeeded t := by
  have hst := splitSentences_stable t
  cases hout : splitSentencesIfNeeded t with
  | nil =>
    show splitSentencesIfNeeded (joinNL []) = []
    rfl
  | cons a rest =>
    rw [hout] at hst
    have hclean : cleanLines (joinNL (a :: rest)) = a :: rest :=
      cleanLines_joinNL_of_stable _ (by simp)
        (fun x hx => ⟨(hst x hx).1, (hst x hx).2.1, (hst x hx).2.2.1⟩)
    have hparts : ∀ l ∈ (a :: rest : List (List Char)),
        (lineParts l).length < 2 := fun l hl => (hst l hl).2.2.2
    cases rest with
    | nil =>
      have hb : ¬((lineParts a).length ≥ 2) := by
        have := hparts a (List.mem_cons_self a []); omega
      rw [splitSIN_single_lo hclean hb, explodeFold_id [a] hparts [] false]
      simp
    | cons b rest2 =>
      rw [splitSIN_multi hclean, explodeFold_id _ hparts [] false]
      simp


/-- C9: the option exploder is idempotent — applying the sentence-boundary
split to the newline join of its own output returns that output unchanged —
and consequently the forced re-split for rows numbered 316..335 never
changes the already-exploded line list: the options pipeline of every row
returns exactly the plain explode of its options cell. -/
theorem C9_explode_idem (t : List Char) (r : Row) :
    splitSentencesIfNeeded (joinNL (splitSentencesIfNeeded t))
        = splitSentencesIfNeeded t
    ∧ optsPipeline r = splitSentencesIfNeeded r.opciones := by
  refine ⟨splitSIN_idem t, ?_⟩
  simp only [optsPipeline]
  split
  · split
    · split
      · exact splitSIN_idem r.opciones
      · rfl
    · rfl
  · rfl

end FixExcel
